import Mathlib

/-!
Shallow embedding of the gtrie R-way trie (src/trie.go, src/trie.search.go).

Modelling conventions:
* Go `rune` is `Char`; a Go `string` key is its rune slice `List Char`.
* `trieNode.children` is a Go `map[rune]*trieNode`; it is modelled as an
  association list `Children α` (the mutually inductive list keeps every
  recursion structural, hence kernel-computable).  Go map iteration order is
  unspecified; the embedding fixes the insertion order as the iteration
  order.  Results that depend on that order are only used up to membership.
* Go `interface{}` values attached to keys are `Option α` (`nil` = `none`);
  a Go `interface{}` that may hold either a key string or a stored value
  (as in `SearchValues`) is the sum `IVal α`.
* The `parent` pointers exist only for the upward walk in `Remove`; the
  embedding replays that walk by paths from the root (`modifyAt`,
  `updMaskAlong`, `removeLoop`), one Go statement at a time, so the net
  effect on the surviving tree (including the exact sequence of
  `updateMask` recomputations and their staleness) is reproduced.
* Go `uint64(1) << uint64(r-'a')`: a shift count ≥ 64 (any rune outside
  `'a'..'a'+63`, including every rune below `'a'`, whose difference wraps to
  a huge uint64) yields 0.  `maskbit` captures exactly this.
* The explicit-stack loops (`collect`, `fuzzycollect`, …) pop the last
  pushed element first; the embedding renders this LIFO traversal as the
  equivalent structural recursion that visits the children of a node in
  reverse list order after emitting the node itself.
* `sort.Sort(byKeys keys)` sorts by ascending `len`; Go's sort is an
  unstable comparison sort, i.e. some `Less`-nondecreasing permutation.
  The embedding uses the mergeSort by length as representative; statements
  about `FindByFuzzy` are made only up to membership or for outputs whose
  lengths are pairwise distinct, where every nondecreasing permutation
  coincides.
-/

namespace Gtrie

/-- The sentinel rune `nul = 0x0` that keys the synthetic terminal child. -/
def nulChar : Char := Char.ofNat 0

/-- `uint64(1) << uint64(r-'a')` from Go: one bit for runes in `'a'..'a'+63`,
0 for every other rune (shift count ≥ 64 gives 0 on a Go uint64). -/
def maskbit (c : Char) : Nat :=
  if 97 ≤ c.toNat ∧ c.toNat ≤ 160 then 1 <<< (c.toNat - 97) else 0

/-- `maskruneslice` (src/trie.go): OR of the bits of all runes of a slice. -/
def maskruneslice (rs : List Char) : Nat := rs.foldl (fun m r => m ||| maskbit r) 0

mutual
/-- `trieNode` (src/trie.go).  The `parent` pointer is not a field: it is
navigational only and is replayed by root paths. -/
inductive TrieNode (α : Type) : Type where
  | mk (rval : Char) (path : List Char) (term : Bool) (depth : Int)
       (value : Option α) (mask : Nat) (termCount : Int)
       (children : Children α) : TrieNode α
/-- The `children` map, as an association list of `rune ↦ child`. -/
inductive Children (α : Type) : Type where
  | nil : Children α
  | cons (r : Char) (node : TrieNode α) (rest : Children α) : Children α
end

namespace TrieNode

def rval : TrieNode α → Char | mk r _ _ _ _ _ _ _ => r
def path : TrieNode α → List Char | mk _ p _ _ _ _ _ _ => p
def term : TrieNode α → Bool | mk _ _ t _ _ _ _ _ => t
def depth : TrieNode α → Int | mk _ _ _ d _ _ _ _ => d
def value : TrieNode α → Option α | mk _ _ _ _ v _ _ _ => v
def mask : TrieNode α → Nat | mk _ _ _ _ _ m _ _ => m
def termCount : TrieNode α → Int | mk _ _ _ _ _ _ c _ => c
def children : TrieNode α → Children α | mk _ _ _ _ _ _ _ cs => cs

def withMask : TrieNode α → Nat → TrieNode α
  | mk r p t d v _ c cs, m => mk r p t d v m c cs
def withTermCount : TrieNode α → Int → TrieNode α
  | mk r p t d v m _ cs, c => mk r p t d v m c cs
def withChildren : TrieNode α → Children α → TrieNode α
  | mk r p t d v m c _, cs => mk r p t d v m c cs

end TrieNode

namespace Children

/-- Go `node.children[r]` lookup. -/
def lookup : Children α → Char → Option (TrieNode α)
  | nil, _ => none
  | cons r c rest, q => if q = r then some c else lookup rest q

/-- Go `node.children[r] = c` (map assignment: replace or append). -/
def insert : Children α → Char → TrieNode α → Children α
  | nil, q, nd => cons q nd nil
  | cons r c rest, q, nd => if q = r then cons r nd rest else cons r c (insert rest q nd)

/-- Go `delete(node.children, r)`. -/
def erase : Children α → Char → Children α
  | nil, _ => nil
  | cons r c rest, q => if q = r then erase rest q else cons r c (erase rest q)

/-- Go `len(node.children) <= 0`. -/
def isEmpty : Children α → Bool
  | nil => true
  | cons _ _ _ => false

/-- OR of all children's masks (the loop body of `updateMask`). -/
def orMasks : Children α → Nat
  | nil => 0
  | cons _ c rest => c.mask ||| orMasks rest

def hasKey : Children α → Char → Bool
  | nil, _ => false
  | cons r _ rest, q => q = r || hasKey rest q

end Children

/-- `Trie` (src/trie.go): the root node and the stored-key counter.  The
`sync.RWMutex` guards a synchronous structure and has no observable
behaviour in a sequential embedding. -/
structure Trie (α : Type) : Type where
  root : TrieNode α
  size : Int

/-- `New()`: fresh root with an empty children map, everything else zero. -/
def New (α : Type) : Trie α :=
  ⟨.mk nulChar [] false 0 none 0 0 .nil, 0⟩

/-- `Size()` returns the `size` field. -/
def Size (t : Trie α) : Int := t.size

/-- `findNode` (src/trie.go): walk the runes down the children maps. -/
def findNode : TrieNode α → List Char → Option (TrieNode α)
  | n, [] => some n
  | n, r :: rest =>
    match n.children.lookup r with
    | none => none
    | some c => findNode c rest

/-- The duplicate check at the top of `Add`: the key's node exists and has a
terminal `nul` child. -/
def hasTerminal (root : TrieNode α) (key : List Char) : Bool :=
  match findNode root key with
  | none => false
  | some node =>
    match node.children.lookup nulChar with
    | none => false
    | some c => c.term

/-- The walk of `Add` below the root: at each remaining suffix, OR the
suffix mask into the child (creating it via `newChild` if absent — which
also ORs the mask into the parent), add `cnt` to its `termCount`, and
descend; after the last rune attach the synthetic terminal child
`newChild(nul, key, 0, value, true)` (a map assignment, so an existing
`nul` binding is overwritten). -/
def addWalk (value : α) (cnt : Int) (key : List Char) :
    List Char → TrieNode α → TrieNode α
  | [], node =>
    -- node = node.newChild(nul, key, 0, value, true); parent mask |= 0
    node.withChildren
      (node.children.insert nulChar
        (.mk nulChar key true (node.depth + 1) (some value) 0 0 .nil))
  | r :: rest, node =>
    let bitmask := maskruneslice (r :: rest)
    match node.children.lookup r with
    | some child =>
      let child := child.withMask (child.mask ||| bitmask)
      let child := child.withTermCount (child.termCount + cnt)
      node.withChildren (node.children.insert r (addWalk value cnt key rest child))
    | none =>
      -- node.newChild(r, "", bitmask, nil, false), then termCount += cnt
      let child : TrieNode α := .mk r [] false (node.depth + 1) none bitmask cnt .nil
      (node.withMask (node.mask ||| bitmask)).withChildren
        (node.children.insert r (addWalk value cnt key rest child))

/-- `Add(key, value)` (src/trie.go). -/
def Add (t : Trie α) (key : List Char) (value : α) : Trie α :=
  let cnt : Int := if hasTerminal t.root key then 0 else 1
  let root := t.root.withMask (t.root.mask ||| maskruneslice key)
  let root := root.withTermCount (root.termCount + cnt)
  ⟨addWalk value cnt key key root, t.size + cnt⟩

/-- `Find(key)` (src/trie.go): `(value, ok)`. -/
def Find (t : Trie α) (key : List Char) : Option α × Bool :=
  match findNode t.root key with
  | none => (none, false)
  | some node =>
    match node.children.lookup nulChar with
    | none => (none, false)
    | some target => if target.term then (target.value, true) else (none, false)

mutual
/-- `collect` (src/trie.go): the explicit-stack depth-first loop pops the
last pushed node first, so each node emits its `path` (when terminal) and
then its children are traversed in reverse map order. -/
def collect : TrieNode α → List (List Char)
  | .mk _ p t _ _ _ _ cs => (if t then [p] else []) ++ collectRev cs
def collectRev : Children α → List (List Char)
  | .nil => []
  | .cons _ c rest => collectRev rest ++ collect c
end

mutual
/-- `collectValues` (src/trie.go): same traversal, emitting values. -/
def collectValues : TrieNode α → List (Option α)
  | .mk _ _ t _ v _ _ cs => (if t then [v] else []) ++ collectValuesRev cs
def collectValuesRev : Children α → List (Option α)
  | .nil => []
  | .cons _ c rest => collectValuesRev rest ++ collectValues c
end

/-- A Go `map[string]interface{}`, as an association list in insertion
order (Go map iteration order is unspecified; this order is the
representative). -/
abbrev KVMap (α : Type) := List (List Char × Option α)

/-- Go `m[k] = v`: replace or append. -/
def kvInsert (m : KVMap α) (k : List Char) (v : Option α) : KVMap α :=
  match m with
  | [] => [(k, v)]
  | (k0, v0) :: rest =>
    if k = k0 then (k0, v) :: rest else (k0, v0) :: kvInsert rest k v

mutual
/-- `collectAll` (src/trie.go): same traversal, emitting `path ↦ value`. -/
def collectAll : TrieNode α → KVMap α
  | .mk _ p t _ v _ _ cs => (if t then [(p, v)] else []) ++ collectAllRev cs
def collectAllRev : Children α → KVMap α
  | .nil => []
  | .cons _ c rest => collectAllRev rest ++ collectAll c
end

mutual
/-- One stack entry of `fuzzycollect` (src/trie.go), holding the remaining
unconsumed suffix `rem = partial[idx:]` (never empty: index `idx` reaches
`len(partial)` only on the collect-and-stop branch).  Popping the entry:
prune when the node's mask misses a required bit; else if the node's rune
matches `rem`'s head consume it, and either collect the whole subtree
(suffix exhausted) or push the children with the shorter suffix; else push
the children with the same suffix.  Pushed children are popped in reverse
map order. -/
def fuzzyNode : List Char → TrieNode α → List (List Char)
  | rem, n@(.mk rv _ _ _ _ nmask _ ncs) =>
    let m := maskruneslice rem
    if nmask &&& m ≠ m then []
    else
      match rem with
      | [] => []
      | c :: cs =>
        if rv = c then
          match cs with
          | [] => collect n
          | _ :: _ => fuzzyRev cs ncs
        else fuzzyRev (c :: cs) ncs
def fuzzyRev : List Char → Children α → List (List Char)
  | _, .nil => []
  | rem, .cons _ c rest => fuzzyRev rem rest ++ fuzzyNode rem c
end

/-- `fuzzycollect(node, partial)` (src/trie.go). -/
def fuzzycollect (node : TrieNode α) (partialKey : List Char) : List (List Char) :=
  match partialKey with
  | [] => collect node
  | _ :: _ => fuzzyNode partialKey node

/-- `byKeys.Less` (src/trie.go) as the sort order: ascending key length. -/
def byKeysLe (a b : List Char) : Prop := a.length ≤ b.length

instance : DecidableRel byKeysLe := fun a b => Nat.decLe a.length b.length

instance : IsTotal (List Char) byKeysLe := ⟨fun _ _ => Nat.le_total _ _⟩

instance : IsTrans (List Char) byKeysLe := ⟨fun _ _ _ => Nat.le_trans⟩

/-- `sort.Sort(byKeys(keys))` (src/trie.go): an unstable comparison sort by
ascending key length.  The insertion sort stands in for it: it is exactly
Go's `insertionSort` path (taken for the short slices all concrete
statements use), and one of the `Less`-nondecreasing permutations the Go
sort may produce in general. -/
def sortByKeys (keys : List (List Char)) : List (List Char) :=
  keys.insertionSort byKeysLe

/-- `FindByFuzzy(key)` (src/trie.go). -/
def FindByFuzzy (t : Trie α) (key : List Char) : List (List Char) :=
  sortByKeys (fuzzycollect t.root key)

mutual
/-- `fuzzycollectValues` (src/trie.go): as `fuzzycollect`, emitting values,
not sorted. -/
def fuzzyValNode : List Char → TrieNode α → List (Option α)
  | rem, n@(.mk rv _ _ _ _ nmask _ ncs) =>
    let m := maskruneslice rem
    if nmask &&& m ≠ m then []
    else
      match rem with
      | [] => []
      | c :: cs =>
        if rv = c then
          match cs with
          | [] => collectValues n
          | _ :: _ => fuzzyValRev cs ncs
        else fuzzyValRev (c :: cs) ncs
def fuzzyValRev : List Char → Children α → List (Option α)
  | _, .nil => []
  | rem, .cons _ c rest => fuzzyValRev rem rest ++ fuzzyValNode rem c
end

/-- `fuzzycollectValues(node, partial)` (src/trie.go). -/
def fuzzycollectValues (node : TrieNode α) (partialKey : List Char) : List (Option α) :=
  match partialKey with
  | [] => collectValues node
  | _ :: _ => fuzzyValNode partialKey node

/-- `FindByFuzzyValue(key)` (src/trie.go): no sorting. -/
def FindByFuzzyValue (t : Trie α) (key : List Char) : List (Option α) :=
  fuzzycollectValues t.root key

mutual
/-- `fuzzycollectAll` (src/trie.go): as `fuzzycollect`, inserting each
collected pair into the result map. -/
def fuzzyAllNode : List Char → TrieNode α → KVMap α
  | rem, n@(.mk rv _ _ _ _ nmask _ ncs) =>
    let m := maskruneslice rem
    if nmask &&& m ≠ m then []
    else
      match rem with
      | [] => []
      | c :: cs =>
        if rv = c then
          match cs with
          | [] => collectAll n
          | _ :: _ => fuzzyAllRev cs ncs
        else fuzzyAllRev (c :: cs) ncs
def fuzzyAllRev : List Char → Children α → KVMap α
  | _, .nil => []
  | rem, .cons _ c rest => fuzzyAllRev rem rest ++ fuzzyAllNode rem c
end

/-- `fuzzycollectAll(node, partial)` (src/trie.go); successive subtree maps
are merged by `m[k] = v` in traversal order. -/
def fuzzycollectAll (node : TrieNode α) (partialKey : List Char) : KVMap α :=
  match partialKey with
  | [] => collectAll node
  | _ :: _ => (fuzzyAllNode partialKey node).foldl (fun m kv => kvInsert m kv.1 kv.2) []

/-- `FindByFuzzyAll(key)` (src/trie.go). -/
def FindByFuzzyAll (t : Trie α) (key : List Char) : KVMap α :=
  fuzzycollectAll t.root key

/-- `FindByPrefix(prefix)` (src/trie.go): `nil` is the empty list. -/
def FindByPrefix (t : Trie α) (pre : List Char) : List (List Char) :=
  match findNode t.root pre with
  | none => []
  | some node => collect node

/-- `FindByPrefixValue(prefix)` (src/trie.go). -/
def FindByPrefixValue (t : Trie α) (pre : List Char) : List (Option α) :=
  match findNode t.root pre with
  | none => []
  | some node => collectValues node

/-- `FindByPrefixAll(prefix)` (src/trie.go). -/
def FindByPrefixAll (t : Trie α) (pre : List Char) : KVMap α :=
  match findNode t.root pre with
  | none => []
  | some node => collectAll node

/-- `HasPrefix(prefix)` (src/trie.go): true iff `findNode` reaches a node. -/
def HasPrefix (t : Trie α) (pre : List Char) : Bool :=
  (findNode t.root pre).isSome

/-- `Keys()` (src/trie.go). -/
def Keys (t : Trie α) : List (List Char) := FindByPrefix t []

/-- `Values()` (src/trie.go). -/
def Values (t : Trie α) : List (Option α) := collectValues t.root

/-- The walk of `FindLongestMatchingPrefix` (src/trie.go): follow the key's
runes; whenever the stepped-into child has a terminal `nul` child record it
as the current best; stop at the first missing child. -/
def flmpWalk : TrieNode α → List Char → Option (TrieNode α) → Option (TrieNode α)
  | _, [], found => found
  | node, r :: rest, found =>
    match node.children.lookup r with
    | none => found
    | some n =>
      let found :=
        match n.children.lookup nulChar with
        | some tn => if tn.term then some tn else found
        | none => found
      flmpWalk n rest found

/-- `FindLongestMatchingPrefix(key)` (src/trie.go):
`(found.path, found.value, true)` or `("", nil, false)`. -/
def FindLongestMatchingPrefix (t : Trie α) (key : List Char) :
    List Char × Option α × Bool :=
  match flmpWalk t.root key none with
  | none => ([], none, false)
  | some tn => (tn.path, tn.value, true)

/-- The walk of `findPrefixMatchNodes` (src/trie.go): as `flmpWalk`, but
collecting every recorded terminal in root-to-leaf order. -/
def fpmnWalk : TrieNode α → List Char → List (TrieNode α)
  | _, [] => []
  | node, r :: rest =>
    match node.children.lookup r with
    | none => []
    | some n =>
      match n.children.lookup nulChar with
      | some tn =>
        if tn.term then tn :: fpmnWalk n rest else fpmnWalk n rest
      | none => fpmnWalk n rest

/-- `findPrefixMatchNodes(key)` (src/trie.go): `nil, false` when the trie
is empty (`size <= 0`) or nothing matched. -/
def findPrefixMatchNodes (t : Trie α) (key : List Char) : Option (List (TrieNode α)) :=
  if t.size ≤ 0 then none
  else
    match fpmnWalk t.root key with
    | [] => none
    | ns => some ns

/-- `FindMatchingPrefix(key)` (src/trie.go). -/
def FindMatchingPrefix (t : Trie α) (key : List Char) : List (List Char) × Bool :=
  match findPrefixMatchNodes t key with
  | some ns => (ns.map TrieNode.path, true)
  | none => ([], false)

/-- `FindMatchingPrefixValue(key)` (src/trie.go). -/
def FindMatchingPrefixValue (t : Trie α) (key : List Char) : List (Option α) :=
  match findPrefixMatchNodes t key with
  | some ns => ns.map TrieNode.value
  | none => []

/-- `FindMatchingPrefixAll(key)` (src/trie.go). -/
def FindMatchingPrefixAll (t : Trie α) (key : List Char) : KVMap α :=
  match findPrefixMatchNodes t key with
  | some ns => ns.foldl (fun m n => kvInsert m n.path n.value) []
  | none => []

/-- `FindRelative(key)` (src/trie.search.go): dedup map over prefix-subtree
matches, ancestor matches and fuzzy matches, then the map's keys.  Note the
code inserts `t.Find(key)` — the value of the *query* — for fuzzy keys. -/
def FindRelative (t : Trie α) (key : List Char) : List (List Char) :=
  let m : KVMap α :=
    match findNode t.root key with
    | some node => collectAll node
    | none => []
  let m :=
    match findPrefixMatchNodes t key with
    | some ns => ns.foldl (fun m n => kvInsert m n.path n.value) m
    | none => m
  let m := (FindByFuzzy t key).foldl (fun m k => kvInsert m k (Find t key).1) m
  m.map Prod.fst

/-- A Go `interface{}` element of the `SearchValues` result: either a key
string put in by `FindRelativeValues`, or a stored (possibly nil) value. -/
abbrev IVal (α : Type) := List Char ⊕ Option α

/-- `FindRelativeValues(key)` (src/trie.search.go).  The final loop is
`for k := range m { values = append(values, k) }`: it appends the map's
*keys* (strings), not the stored values. -/
def FindRelativeValues (t : Trie α) (key : List Char) : List (IVal α) :=
  let m : KVMap α :=
    match findNode t.root key with
    | some node => collectAll node
    | none => []
  let m :=
    match findPrefixMatchNodes t key with
    | some ns => ns.foldl (fun m n => kvInsert m n.path n.value) m
    | none => m
  let m := (FindByFuzzy t key).foldl (fun m k => kvInsert m k (Find t key).1) m
  m.map (fun kv => Sum.inl kv.1)

/-- `FindRelativeAll(key)` (src/trie.search.go). -/
def FindRelativeAll (t : Trie α) (key : List Char) : KVMap α :=
  let m : KVMap α :=
    match findNode t.root key with
    | some node => collectAll node
    | none => []
  let m :=
    match findPrefixMatchNodes t key with
    | some ns => ns.foldl (fun m n => kvInsert m n.path n.value) m
    | none => m
  (FindByFuzzyAll t key).foldl (fun m kv => kvInsert m kv.1 kv.2) m

/-- `SearchType` (src/trie.search.go). -/
abbrev SearchType := Int

def SearchExactly : SearchType := 0
def SearchByPrefix : SearchType := 1
def SearchLongestMatchingPrefix : SearchType := 2
def SearchMatcingPrefix : SearchType := 3
def SearchApproximate : SearchType := 4
def SearchAllRelativeKey : SearchType := 5

/-- `Search(key, stype)` (src/trie.search.go): unrecognized modes fall
through to `nil`. -/
def Search (t : Trie α) (key : List Char) (stype : SearchType) : List (List Char) :=
  if stype = SearchExactly then
    if (Find t key).2 then [key] else []
  else if stype = SearchByPrefix then FindByPrefix t key
  else if stype = SearchLongestMatchingPrefix then
    match FindLongestMatchingPrefix t key with
    | (k, _, true) => [k]
    | (_, _, false) => []
  else if stype = SearchMatcingPrefix then
    match FindMatchingPrefix t key with
    | (keys, true) => keys
    | (_, false) => []
  else if stype = SearchApproximate then FindByFuzzy t key
  else if stype = SearchAllRelativeKey then FindRelative t key
  else []

/-- `SearchValues(key, stype)` (src/trie.search.go): stored values are
injected with `Sum.inr`; the `SearchAllRelativeKey` arm returns whatever
`FindRelativeValues` built. -/
def SearchValues (t : Trie α) (key : List Char) (stype : SearchType) : List (IVal α) :=
  if stype = SearchExactly then
    match Find t key with
    | (v, true) => [Sum.inr v]
    | (_, false) => []
  else if stype = SearchByPrefix then (FindByPrefixValue t key).map Sum.inr
  else if stype = SearchLongestMatchingPrefix then
    match FindLongestMatchingPrefix t key with
    | (_, v, true) => [Sum.inr v]
    | (_, _, false) => []
  else if stype = SearchMatcingPrefix then (FindMatchingPrefixValue t key).map Sum.inr
  else if stype = SearchApproximate then (FindByFuzzyValue t key).map Sum.inr
  else if stype = SearchAllRelativeKey then FindRelativeValues t key
  else []

/-- Replay of a Go statement `node.field = …` for the node reached by a
path from the root (the identity when the path is missing, which the
removal walk never exercises). -/
def modifyAt : TrieNode α → List Char → (TrieNode α → TrieNode α) → TrieNode α
  | n, [], f => f n
  | n, c :: cs, f =>
    match n.children.lookup c with
    | none => n
    | some ch => n.withChildren (n.children.insert c (modifyAt ch cs f))

/-- One step of `updateMask` (src/trie.go): zero the mask, OR in the node's
own character bit, OR in every child's mask. -/
def recomputeMask (n : TrieNode α) : TrieNode α :=
  n.withMask (maskbit n.rval ||| n.children.orMasks)

/-- `updateMask(node)` (src/trie.go) for the node at the given root path:
recompute the node's mask, then each ancestor's in turn up to the root
(each parent seeing the child's freshly recomputed mask). -/
def updMaskAlong : TrieNode α → List Char → TrieNode α
  | n, [] => recomputeMask n
  | n, c :: cs =>
    match n.children.lookup c with
    | none => recomputeMask n
    | some ch => recomputeMask (n.withChildren (n.children.insert c (updMaskAlong ch cs)))

/-- `node.termCount--`. -/
def decTC (n : TrieNode α) : TrieNode α := n.withTermCount (n.termCount - 1)

/-- The upward loop of `Remove` (src/trie.go), replayed top-down by depth
`d+1 = key.length … 1`: decrement that node's `termCount`; if its children
map is now empty, `parent.removeChild(rs[len(rs)-i])` detaches it (the
`delete` plus `updateMask(parent.parent)`, which exists only for `d ≥ 1`). -/
def removeLoop (key : List Char) : Nat → TrieNode α → TrieNode α
  | 0, t => t
  | d + 1, t =>
    let t := modifyAt t (key.take (d + 1)) decTC
    let t :=
      match findNode t (key.take (d + 1)) with
      | none => t
      | some nd =>
        if nd.children.isEmpty then
          let t :=
            match key.drop d with
            | [] => t
            | r :: _ => modifyAt t (key.take d) (fun p => p.withChildren (p.children.erase r))
          match d with
          | 0 => t
          | e + 1 => updMaskAlong t (key.take e)
        else t
    removeLoop key d t

/-- `Remove(key)` (src/trie.go): the removed value (or `nil`) and the trie
after the removal.  The Go statements are replayed in order: detach the
terminal `nul` child (`removeChild(nul)` = delete + `updateMask(node.parent)`),
run the upward pruning loop, decrement the root's `termCount`, and finish
with `updateMask(node)` on the root. -/
def Remove (t : Trie α) (key : List Char) : Option α × Trie α :=
  match findNode t.root key with
  | none => (none, t)
  | some node =>
    match node.children.lookup nulChar with
    | none => (none, t)
    | some target =>
      if target.term then
        let r := modifyAt t.root key (fun n => n.withChildren (n.children.erase nulChar))
        let r :=
          match key with
          | [] => r
          | _ :: _ => updMaskAlong r (key.take (key.length - 1))
        let r := removeLoop key key.length r
        let r := modifyAt r [] decTC
        let r := updMaskAlong r []
        (target.value, ⟨r, t.size - 1⟩)
      else (none, t)

/-- `Clear()` (src/trie.go): detach all children and reset every root field
to its zero value.  The `size` field is *not* touched by the code. -/
def Clear (t : Trie α) : Trie α :=
  ⟨.mk nulChar [] false 0 none 0 0 .nil, t.size⟩

/-- `SearchAll(key, stype)` (src/trie.search.go). -/
def SearchAll (t : Trie α) (key : List Char) (stype : SearchType) : KVMap α :=
  if stype = SearchExactly then
    match Find t key with
    | (v, true) => [(key, v)]
    | (_, false) => []
  else if stype = SearchByPrefix then FindByPrefixAll t key
  else if stype = SearchLongestMatchingPrefix then
    match FindLongestMatchingPrefix t key with
    | (k, v, true) => [(k, v)]
    | (_, _, false) => []
  else if stype = SearchMatcingPrefix then FindMatchingPrefixAll t key
  else if stype = SearchApproximate then FindByFuzzyAll t key
  else if stype = SearchAllRelativeKey then FindRelativeAll t key
  else []

/-! ### Semantic layer: the specification-side definitions the claims are
stated against. -/

mutual
/-- The stored keys of a subtree: the `path` of every terminal node. -/
def keysOf : TrieNode α → List (List Char)
  | .mk _ p t _ _ _ _ cs => (if t then [p] else []) ++ keysOfC cs
def keysOfC : Children α → List (List Char)
  | .nil => []
  | .cons _ c rest => keysOfC rest ++ keysOf c
end

mutual
/-- The number of terminal nodes in a subtree, the node itself included. -/
def countTerm : TrieNode α → Nat
  | .mk _ _ t _ _ _ _ cs => (if t then 1 else 0) + countTermC cs
def countTermC : Children α → Nat
  | .nil => 0
  | .cons _ c rest => countTerm c + countTermC rest
end

mutual
/-- `(key, suffix)` pairs of a subtree: for every terminal descendant, its
full `path` together with the chain of `rval`s from this node's own rune
(excluded for the terminal itself, whose suffix is empty) down to the
terminal's parent.  On a well-formed trie this suffix is the stored key
minus the runes consumed strictly above this node. -/
def tsuffixes : TrieNode α → List (List Char × List Char)
  | .mk rv p t _ _ _ _ cs =>
    (if t then [(p, [])] else []) ++ (tsuffixesC cs).map (fun q => (q.1, rv :: q.2))
def tsuffixesC : Children α → List (List Char × List Char)
  | .nil => []
  | .cons _ c rest => tsuffixesC rest ++ tsuffixes c
end

/-- Bitmask inclusion: every bit of `a` is a bit of `b`. -/
def bitsub (a b : Nat) : Bool := a &&& b = a

mutual
/-- The reachability-mask invariant the spec calls "safe over-approximation":
every node's mask contains its own character bit and each child's mask,
hereditarily.  `Add` establishes it and `updateMask` recomputation keeps
it. -/
def maskOk : TrieNode α → Bool
  | .mk rv _ _ _ _ m _ cs => bitsub (maskbit rv) m && maskOkC m cs
def maskOkC : Nat → Children α → Bool
  | _, .nil => true
  | pm, .cons _ c rest => bitsub c.mask pm && maskOk c && maskOkC pm rest
end

mutual
/-- Structural well-formedness of a node whose chain of runes from the root
is `pre`: children are keyed by their own `rval` with no duplicate keys; a
`nul` child is the synthetic terminal — a leaf whose `path` is the chain;
any other child is a non-terminal rune node, recursively well-formed. -/
def structWf : List Char → TrieNode α → Bool
  | pre, .mk _ _ _ _ _ _ _ cs => structWfC pre cs
def structWfC : List Char → Children α → Bool
  | _, .nil => true
  | pre, .cons r c rest =>
    (c.rval = r) && !(rest.hasKey r) &&
    (if r = nulChar then c.term && c.children.isEmpty && (c.path = pre)
     else !c.term && structWf (pre ++ [r]) c) &&
    structWfC pre rest
end

/-- Well-formed trie: a non-terminal sentinel root whose subtree is
structurally well-formed and mask-safe.  `New` satisfies it and every
public operation on `nul`-free keys preserves it. -/
def trieWf (t : Trie α) : Bool :=
  (t.root.rval = nulChar) && !t.root.term && structWf [] t.root && maskOk t.root

mutual
/-- Set every mask of a subtree to zero.  `Find`, `collect`, `keysOf`,
`countTerm` and the structural invariants are blind to masks, so equality
of `stripMasks` images identifies the structural effect of `Remove`. -/
def stripMasks : TrieNode α → TrieNode α
  | .mk rv p t d v _ tc cs => .mk rv p t d v 0 tc (stripMasksC cs)
def stripMasksC : Children α → Children α
  | .nil => .nil
  | .cons r c rest => .cons r (stripMasks c) (stripMasksC rest)
end

/-- The net structural effect of `Remove` on the surviving tree (masks
aside): drop the terminal `nul` child at the end of the key, decrement
`termCount` on every node along the key, and detach every node on the key
that is left with an empty children map (bottom-up). -/
def removeSimple : TrieNode α → List Char → TrieNode α
  | n, [] => decTC (n.withChildren (n.children.erase nulChar))
  | n, c :: cs =>
    match n.children.lookup c with
    | none => decTC n
    | some ch =>
      let ch := removeSimple ch cs
      if ch.children.isEmpty then decTC (n.withChildren (n.children.erase c))
      else decTC (n.withChildren (n.children.insert c ch))

/-- `removeLoop` with the `updateMask` calls dropped: the structural
skeleton of the upward walk, used to relate `Remove` to `removeSimple`
through `stripMasks`. -/
def removeLoopS (key : List Char) : Nat → TrieNode α → TrieNode α
  | 0, t => t
  | d + 1, t =>
    let t := modifyAt t (key.take (d + 1)) decTC
    let t :=
      match findNode t (key.take (d + 1)) with
      | none => t
      | some nd =>
        if nd.children.isEmpty then
          match key.drop d with
          | [] => t
          | r :: _ => modifyAt t (key.take d) (fun p => p.withChildren (p.children.erase r))
        else t
    removeLoopS key d t

/-- One iteration of `removeLoopS` at depth `d + 1` (the loop body with the
`updateMask` calls dropped), factored out so the loop can be unrolled one
step at a time. -/
def rlStep (key : List Char) (d : Nat) (t : TrieNode α) : TrieNode α :=
  match findNode (modifyAt t (key.take (d + 1)) decTC) (key.take (d + 1)) with
  | none => modifyAt t (key.take (d + 1)) decTC
  | some nd =>
    if nd.children.isEmpty then
      match key.drop d with
      | [] => modifyAt t (key.take (d + 1)) decTC
      | r :: _ => modifyAt (modifyAt t (key.take (d + 1)) decTC) (key.take d)
          (fun p => p.withChildren (p.children.erase r))
    else modifyAt t (key.take (d + 1)) decTC

/-- `Find` from an arbitrary node (the walk `Find` performs on the root). -/
def nodeFind (root : TrieNode α) (key : List Char) : Option α × Bool :=
  match findNode root key with
  | none => (none, false)
  | some node =>
    match node.children.lookup nulChar with
    | none => (none, false)
    | some target => if target.term then (target.value, true) else (none, false)

mutual
/-- Every member of a children list satisfies `maskOk` (no constraint
against a parent mask). -/
def allMaskOk : Children α → Bool
  | .nil => true
  | .cons _ c rest => maskOk c && allMaskOk rest
end

/-- Build a trie by a sequence of `Add`s from `New`. -/
def buildTrie (adds : List (List Char × α)) : Trie α :=
  adds.foldl (fun t kv => Add t kv.1 kv.2) (New α)

/-- A public mutating operation of the trie API. -/
inductive Op (α : Type) : Type where
  | add (key : List Char) (value : α) : Op α
  | remove (key : List Char) : Op α
  | clear : Op α

/-- Run one public mutating operation. -/
def applyOp (t : Trie α) : Op α → Trie α
  | .add k v => Add t k v
  | .remove k => (Remove t k).2
  | .clear => Clear t

/-- Run a sequence of public mutating operations from a fresh trie. -/
def applyOps (ops : List (Op α)) : Trie α :=
  ops.foldl applyOp (New α)

/-- Keys of an operation sequence avoid the sentinel rune. -/
def opsNulFree (ops : List (Op α)) : Bool :=
  ops.all (fun op =>
    match op with
    | .add k _ => k.all (fun c => !(c = nulChar))
    | .remove k => k.all (fun c => !(c = nulChar))
    | .clear => true)

mutual
/-- Every terminal node of the subtree is keyed by the sentinel rune (the
structural core that the fuzzy-search argument needs: a node whose `rval`
can match a sentinel-free query is never itself terminal). -/
def termNul : TrieNode α → Bool
  | .mk rv _ t _ _ _ _ cs => (if t then rv = nulChar else true) && termNulC cs
def termNulC : Children α → Bool
  | .nil => true
  | .cons _ c rest => termNul c && termNulC rest
end

/-- Key strings as rune lists. -/
def strK (x : String) : List Char := x.toList

/-- The eight-key fixture of the fuzzy-search example. -/
def fzTrie : Trie Nat :=
  buildTrie [(strK "foosball", 1), (strK "football", 2), (strK "bmerica", 3),
    (strK "ked", 4), (strK "kedlock", 5), (strK "frosty", 6), (strK "bfrza", 7),
    (strK "foo/bart/baz.go", 8)]

/-- The longest-prefix-match fixture. -/
def lmTrie : Trie Nat := buildTrie [(strK "foo", 1), (strK "foretold", 2)]

/-- A fixture storing a key and a strict extension of it. -/
def ppTrie : Trie Nat := buildTrie [(strK "foo", 10), (strK "foosball", 20)]

mutual
/-- The amended `termCount` invariant: every node's `termCount` equals the
number of terminal nodes *strictly below* it (the node itself excluded —
in particular a synthetic terminal child carries 0, not 1). -/
def tcOk : TrieNode α → Bool
  | .mk _ _ _ _ _ _ tc cs => (tc = (countTermC cs : Int)) && tcOkC cs
def tcOkC : Children α → Bool
  | .nil => true
  | .cons _ c rest => tcOk c && tcOkC rest
end

/-! ### Basic lemmas -/

@[simp] theorem rval_mk (r : Char) (p : List Char) (t : Bool) (d : Int)
    (v : Option α) (m : Nat) (c : Int) (cs : Children α) :
    (TrieNode.mk r p t d v m c cs).rval = r := rfl

@[simp] theorem path_mk (r : Char) (p : List Char) (t : Bool) (d : Int)
    (v : Option α) (m : Nat) (c : Int) (cs : Children α) :
    (TrieNode.mk r p t d v m c cs).path = p := rfl

@[simp] theorem term_mk (r : Char) (p : List Char) (t : Bool) (d : Int)
    (v : Option α) (m : Nat) (c : Int) (cs : Children α) :
    (TrieNode.mk r p t d v m c cs).term = t := rfl

@[simp] theorem value_mk (r : Char) (p : List Char) (t : Bool) (d : Int)
    (v : Option α) (m : Nat) (c : Int) (cs : Children α) :
    (TrieNode.mk r p t d v m c cs).value = v := rfl

@[simp] theorem mask_mk (r : Char) (p : List Char) (t : Bool) (d : Int)
    (v : Option α) (m : Nat) (c : Int) (cs : Children α) :
    (TrieNode.mk r p t d v m c cs).mask = m := rfl

@[simp] theorem termCount_mk (r : Char) (p : List Char) (t : Bool) (d : Int)
    (v : Option α) (m : Nat) (c : Int) (cs : Children α) :
    (TrieNode.mk r p t d v m c cs).termCount = c := rfl

@[simp] theorem children_mk (r : Char) (p : List Char) (t : Bool) (d : Int)
    (v : Option α) (m : Nat) (c : Int) (cs : Children α) :
    (TrieNode.mk r p t d v m c cs).children = cs := rfl

@[simp] theorem children_withChildren (n : TrieNode α) (cs : Children α) :
    (n.withChildren cs).children = cs := by cases n <;> rfl

@[simp] theorem children_withMask (n : TrieNode α) (m : Nat) :
    (n.withMask m).children = n.children := by cases n <;> rfl

@[simp] theorem children_withTermCount (n : TrieNode α) (c : Int) :
    (n.withTermCount c).children = n.children := by cases n <;> rfl

@[simp] theorem mask_withMask (n : TrieNode α) (m : Nat) :
    (n.withMask m).mask = m := by cases n <;> rfl

@[simp] theorem mask_withChildren (n : TrieNode α) (cs : Children α) :
    (n.withChildren cs).mask = n.mask := by cases n <;> rfl

@[simp] theorem mask_withTermCount (n : TrieNode α) (c : Int) :
    (n.withTermCount c).mask = n.mask := by cases n <;> rfl

@[simp] theorem term_withChildren (n : TrieNode α) (cs : Children α) :
    (n.withChildren cs).term = n.term := by cases n <;> rfl

@[simp] theorem term_withMask (n : TrieNode α) (m : Nat) :
    (n.withMask m).term = n.term := by cases n <;> rfl

@[simp] theorem term_withTermCount (n : TrieNode α) (c : Int) :
    (n.withTermCount c).term = n.term := by cases n <;> rfl

@[simp] theorem path_withChildren (n : TrieNode α) (cs : Children α) :
    (n.withChildren cs).path = n.path := by cases n <;> rfl

@[simp] theorem path_withMask (n : TrieNode α) (m : Nat) :
    (n.withMask m).path = n.path := by cases n <;> rfl

@[simp] theorem path_withTermCount (n : TrieNode α) (c : Int) :
    (n.withTermCount c).path = n.path := by cases n <;> rfl

@[simp] theorem rval_withChildren (n : TrieNode α) (cs : Children α) :
    (n.withChildren cs).rval = n.rval := by cases n <;> rfl

@[simp] theorem rval_withMask (n : TrieNode α) (m : Nat) :
    (n.withMask m).rval = n.rval := by cases n <;> rfl

@[simp] theorem rval_withTermCount (n : TrieNode α) (c : Int) :
    (n.withTermCount c).rval = n.rval := by cases n <;> rfl

@[simp] theorem value_withChildren (n : TrieNode α) (cs : Children α) :
    (n.withChildren cs).value = n.value := by cases n <;> rfl

@[simp] theorem value_withMask (n : TrieNode α) (m : Nat) :
    (n.withMask m).value = n.value := by cases n <;> rfl

@[simp] theorem value_withTermCount (n : TrieNode α) (c : Int) :
    (n.withTermCount c).value = n.value := by cases n <;> rfl

@[simp] theorem termCount_withTermCount (n : TrieNode α) (c : Int) :
    (n.withTermCount c).termCount = c := by cases n <;> rfl

@[simp] theorem termCount_withChildren (n : TrieNode α) (cs : Children α) :
    (n.withChildren cs).termCount = n.termCount := by cases n <;> rfl

@[simp] theorem termCount_withMask (n : TrieNode α) (m : Nat) :
    (n.withMask m).termCount = n.termCount := by cases n <;> rfl

mutual
/-- Single-goal structural induction for the mutual pair. -/
theorem trieNode_induct {P : TrieNode α → Prop} {Q : Children α → Prop}
    (h1 : ∀ rv p t d v m tc cs, Q cs → P (.mk rv p t d v m tc cs))
    (h2 : Q .nil) (h3 : ∀ r c rest, P c → Q rest → Q (.cons r c rest)) :
    ∀ n : TrieNode α, P n
  | .mk rv p t d v m tc cs =>
    h1 rv p t d v m tc cs (children_induct h1 h2 h3 cs)
theorem children_induct {P : TrieNode α → Prop} {Q : Children α → Prop}
    (h1 : ∀ rv p t d v m tc cs, Q cs → P (.mk rv p t d v m tc cs))
    (h2 : Q .nil) (h3 : ∀ r c rest, P c → Q rest → Q (.cons r c rest)) :
    ∀ cs : Children α, Q cs
  | .nil => h2
  | .cons r c rest =>
    h3 r c rest (trieNode_induct h1 h2 h3 c) (children_induct h1 h2 h3 rest)
end

/-- Structural induction on a children list alone (the child nodes are
opaque). -/
theorem children_recList {Q : Children α → Prop} (h2 : Q .nil)
    (h3 : ∀ r c rest, Q rest → Q (.cons r c rest)) : ∀ cs : Children α, Q cs :=
  @children_induct α (fun _ => True) Q (fun _ _ _ _ _ _ _ _ _ => trivial) h2
    (fun r c rest _ => h3 r c rest)

namespace Children

@[simp] theorem lookup_insert_self (cs : Children α) (r : Char) (nd : TrieNode α) :
    (cs.insert r nd).lookup r = some nd := by
  induction cs using children_recList with
  | h2 => simp [insert, lookup]
  | h3 r0 c0 rest ih =>
    by_cases h : r = r0 <;> simp [insert, lookup, h, ih]

theorem lookup_insert_ne (cs : Children α) {q r : Char} (nd : TrieNode α)
    (h : q ≠ r) : (cs.insert r nd).lookup q = cs.lookup q := by
  induction cs using children_recList with
  | h2 => simp [insert, lookup, h]
  | h3 r0 c0 rest ih =>
    by_cases h0 : r = r0
    · subst h0; simp [insert, lookup, h, ih]
    · by_cases hq : q = r0 <;> simp [insert, lookup, h0, hq, ih]

theorem lookup_erase_ne (cs : Children α) {q r : Char} (h : q ≠ r) :
    (cs.erase r).lookup q = cs.lookup q := by
  induction cs using children_recList with
  | h2 => simp [erase, lookup]
  | h3 r0 c0 rest ih =>
    by_cases h0 : r = r0
    · subst h0; simp [erase, lookup, h, ih]
    · by_cases hq : q = r0 <;> simp [erase, lookup, h0, hq, ih]

@[simp] theorem lookup_erase_self (cs : Children α) (r : Char) :
    (cs.erase r).lookup r = none := by
  induction cs using children_recList with
  | h2 => simp [erase, lookup]
  | h3 r0 c0 rest ih =>
    by_cases h0 : r = r0
    · subst h0; simpa [erase] using ih
    · simp only [erase, lookup, if_neg h0, ih]

end Children

/-- The `Add` walk leaves, at the end of the walked suffix, a node whose
`nul` child is the freshly attached terminal carrying the key and value. -/
theorem addWalk_finds (value : α) (cnt : Int) (key : List Char) :
    ∀ (rem : List Char) (node : TrieNode α), ∃ (n : TrieNode α) (d : Int),
      findNode (addWalk value cnt key rem node) rem = some n ∧
      n.children.lookup nulChar =
        some (.mk nulChar key true d (some value) 0 0 .nil) := by
  intro rem
  induction rem with
  | nil =>
    intro node
    refine ⟨addWalk value cnt key [] node, node.depth + 1, rfl, ?_⟩
    simp [addWalk]
  | cons r rest ih =>
    intro node
    cases hl : node.children.lookup r with
    | some child =>
      obtain ⟨n, d, h1, h2⟩ :=
        ih ((child.withMask (child.mask ||| maskruneslice (r :: rest))).withTermCount
          (child.termCount + cnt))
      exact ⟨n, d, by simp [addWalk, hl, findNode, h1], h2⟩
    | none =>
      obtain ⟨n, d, h1, h2⟩ :=
        ih (.mk r [] false (node.depth + 1) none (maskruneslice (r :: rest)) cnt .nil)
      exact ⟨n, d, by simp [addWalk, hl, findNode, h1], h2⟩

/-- Claim C3: `Add(k, v)` followed by `Find(k)` returns `(v, true)`, and
`Size` is unchanged when `k` already had a terminal node (the condition the
code itself tests before choosing `cnt`), otherwise grows by exactly 1. -/
theorem claim_C3_add_find_roundtrip (t : Trie α) (key : List Char) (v : α) :
    Find (Add t key v) key = (some v, true) ∧
    Size (Add t key v) =
      Size t + (if hasTerminal t.root key then 0 else 1) := by
  constructor
  · obtain ⟨n, d, h1, h2⟩ := addWalk_finds v (if hasTerminal t.root key then 0 else 1)
      key key ((t.root.withMask (t.root.mask ||| maskruneslice key)).withTermCount
        ((t.root.withMask (t.root.mask ||| maskruneslice key)).termCount +
          (if hasTerminal t.root key then 0 else 1)))
    simp only [Find, Add, h1, h2, term_mk, value_mk, if_pos]
  · rfl

/-- Claim C10: `HasPrefix("")` is `true` on every trie — the empty walk
always ends at the ever-present root node, a stored key is not required. -/
theorem claim_C10_hasPrefix_empty (t : Trie α) : HasPrefix t [] = true := rfl

/-- Claim C2 (code bug): after `Add("a", 1)` then `Clear()`, the key list
is empty but `Size()` still reports 1 — `Clear` never resets the `size`
field, contradicting the documented "resets to empty, size 0". -/
theorem claim_C2_clear_keeps_size :
    Size (Clear (Add (New Nat) ['a'] 1)) = 1 ∧
    FindByPrefix (Clear (Add (New Nat) ['a'] 1)) [] = [] := by decide

/-- Claim C5 (code bug): `SearchValues(k, SearchAllRelativeKey)` =
`FindRelativeValues` returns the matching *key strings* (`Sum.inl`), not
the stored values: after `Add("a", 42)` the result is the key `"a"` and the
stored value 42 appears nowhere. -/
theorem claim_C5_relative_values_returns_keys :
    SearchValues (Add (New Nat) ['a'] 42) ['a'] SearchAllRelativeKey =
      [Sum.inl ['a']] ∧
    (Sum.inl ['a'] : IVal Nat) ≠ Sum.inr (some 42) := by decide

/-- Counterexample to claim C6: after `Add("a", 1)` the synthetic terminal
child of the `'a'` node has `termCount = 0` although its subtree contains
one terminal node (itself) — the claimed value 1 never materializes because
`Add` never increments the freshly created terminal child. -/
theorem claim_C6_counterexample :
    ((findNode (Add (New Nat) ['a'] 1).root ['a']).bind
        (fun n => n.children.lookup nulChar)).map TrieNode.termCount = some 0 ∧
    ((findNode (Add (New Nat) ['a'] 1).root ['a']).bind
        (fun n => n.children.lookup nulChar)).map countTerm = some 1 := by decide

/-- Counterexample to claim C7: build `{"a", "ab"}` and remove `"ab"`.
Pruning stops at the `'a'` node (its `'b'` child was detached, the terminal
child remains), yet its mask is still `bit a ||| bit b` = 3: the code's
`removeChild` recomputes masks only from the *parent* of the detaching node
upward, so the stopping ancestor keeps the stale bit of the removed branch
and `3 ≠ 1 = own bit ||| remaining children's masks`; the root's
from-scratch value would also be 1, yet its mask is 3. -/
theorem claim_C7_counterexample :
    (findNode (Remove (buildTrie [(['a'], 0), (['a', 'b'], 1)]) ['a', 'b']).2.root
        ['a']).map (fun n => (n.mask, maskbit n.rval ||| n.children.orMasks,
          n.children.isEmpty, (n.children.lookup 'b').isSome)) =
      some (3, 1, false, false) ∧
    (Remove (buildTrie [(['a'], 0), (['a', 'b'], 1)]) ['a', 'b']).2.root.mask = 3 := by
  decide

/-- Counterexample to claim C8: with `k = "a"` and `k2 = "a\x00b"` (a
strict extension through the sentinel rune), both keys are stored and
retrievable, yet `Remove(k)` detaches the `nul` child that carries `k2`'s
whole subtree: afterwards `k2` is gone. -/
theorem claim_C8_counterexample :
    Find (Add (Add (New Nat) ['a'] 1) ['a', nulChar, 'b'] 2) ['a'] =
      (some 1, true) ∧
    Find (Add (Add (New Nat) ['a'] 1) ['a', nulChar, 'b'] 2) ['a', nulChar, 'b'] =
      (some 2, true) ∧
    List.IsPrefix ['a'] ['a', nulChar, 'b'] ∧ ['a'] ≠ ['a', nulChar, 'b'] ∧
    (Remove (Add (Add (New Nat) ['a'] 1) ['a', nulChar, 'b'] 2) ['a']).1 = some 1 ∧
    Find (Remove (Add (Add (New Nat) ['a'] 1) ['a', nulChar, 'b'] 2) ['a']).2
      ['a', nulChar, 'b'] = (none, false) := by decide

/-- Counterexample to claim C4: the empty string is a stored key and a
literal prefix of the query `"a"`, but `FindLongestMatchingPrefix` returns
absent — the walk only ever inspects terminal children of non-root nodes,
so the empty key can never be the answer. -/
theorem claim_C4_counterexample :
    Find (Add (New Nat) [] 7) [] = (some 7, true) ∧
    List.IsPrefix ([] : List Char) ['a'] ∧
    FindLongestMatchingPrefix (Add (New Nat) [] 7) ['a'] = ([], none, false) := by
  decide

/-! ### Bitmask lemmas -/

theorem bitsub_iff {a b : Nat} :
    bitsub a b = true ↔ ∀ i, a.testBit i = true → b.testBit i = true := by
  constructor
  · intro h i hi
    have h' : a &&& b = a := by simpa [bitsub] using h
    have := congrArg (fun x => Nat.testBit x i) h'
    simp only [Nat.testBit_and] at this
    rw [hi] at this
    simpa using this
  · intro h
    have : a &&& b = a := by
      apply Nat.eq_of_testBit_eq
      intro i
      simp only [Nat.testBit_and]
      cases hi : a.testBit i
      · simp
      · simp [h i hi]
    simpa [bitsub]

theorem bitsub_zero (b : Nat) : bitsub 0 b = true := by simp [bitsub]

theorem bitsub_or {a b c : Nat} (h1 : bitsub a c = true) (h2 : bitsub b c = true) :
    bitsub (a ||| b) c = true := by
  rw [bitsub_iff] at *
  intro i hi
  rcases (by simpa [Nat.testBit_or] using hi : a.testBit i = true ∨ b.testBit i = true) with h | h
  · exact h1 i h
  · exact h2 i h

theorem bitsub_or_left (a b : Nat) : bitsub a (a ||| b) = true := by
  rw [bitsub_iff]; intro i hi; simp [Nat.testBit_or, hi]

theorem bitsub_or_right (a b : Nat) : bitsub b (a ||| b) = true := by
  rw [bitsub_iff]; intro i hi; simp [Nat.testBit_or, hi]

theorem bitsub_trans {a b c : Nat} (h1 : bitsub a b = true) (h2 : bitsub b c = true) :
    bitsub a c = true := by
  rw [bitsub_iff] at *
  exact fun i hi => h2 i (h1 i hi)

theorem foldl_maskor (s : List Char) :
    ∀ a : Nat, s.foldl (fun m r => m ||| maskbit r) a = a ||| maskruneslice s := by
  induction s with
  | nil => intro a; simp [maskruneslice]
  | cons c rest ih =>
    intro a
    simp only [List.foldl_cons]
    rw [ih (a ||| maskbit c)]
    have h2 : maskruneslice (c :: rest) = (0 ||| maskbit c) ||| maskruneslice rest := by
      simp only [maskruneslice, List.foldl_cons]
      rw [ih (0 ||| maskbit c)]
      rfl
    rw [h2]
    simp [Nat.or_assoc]

theorem maskruneslice_cons (c : Char) (s : List Char) :
    maskruneslice (c :: s) = maskbit c ||| maskruneslice s := by
  simp only [maskruneslice, List.foldl_cons]
  rw [foldl_maskor]
  simp only [Nat.zero_or]
  rfl

theorem sublist_bitsub {p s : List Char} (h : p.Sublist s) :
    bitsub (maskruneslice p) (maskruneslice s) = true := by
  induction h with
  | slnil => simp [bitsub, maskruneslice]
  | cons a _ ih =>
    rw [maskruneslice_cons]
    exact bitsub_trans ih (bitsub_or_right _ _)
  | cons₂ a _ ih =>
    rw [maskruneslice_cons, maskruneslice_cons]
    exact bitsub_or (bitsub_or_left _ _) (bitsub_trans ih (bitsub_or_right _ _))

/-! ### Traversal and key-set lemmas -/

theorem mem_collect_pair :
    (∀ (n : TrieNode α) (k : List Char), (k ∈ collect n ↔ k ∈ keysOf n)) ∧
    (∀ (cs : Children α) (k : List Char), (k ∈ collectRev cs ↔ k ∈ keysOfC cs)) := by
  refine
    ⟨@trieNode_induct α (fun n => ∀ k, k ∈ collect n ↔ k ∈ keysOf n)
        (fun cs => ∀ k, k ∈ collectRev cs ↔ k ∈ keysOfC cs) ?hn ?h2 ?h3,
      @children_induct α (fun n => ∀ k, k ∈ collect n ↔ k ∈ keysOf n)
        (fun cs => ∀ k, k ∈ collectRev cs ↔ k ∈ keysOfC cs) ?hn ?h2 ?h3⟩
  case hn => intro rv p t d v m tc cs ih k; simp [collect, keysOf, ih]
  case h2 => intro k; simp [collectRev, keysOfC]
  case h3 => intro r c rest ihc ihr k; simp [collectRev, keysOfC, ihc, ihr]

theorem mem_collect (n : TrieNode α) (k : List Char) :
    k ∈ collect n ↔ k ∈ keysOf n := mem_collect_pair.1 n k

theorem tsuffixes_fst_pair :
    (∀ (n : TrieNode α) (k : List Char),
      ((∃ s, (k, s) ∈ tsuffixes n) ↔ k ∈ keysOf n)) ∧
    (∀ (cs : Children α) (k : List Char),
      ((∃ s, (k, s) ∈ tsuffixesC cs) ↔ k ∈ keysOfC cs)) := by
  refine
    ⟨@trieNode_induct α (fun n => ∀ k, ((∃ s, (k, s) ∈ tsuffixes n) ↔ k ∈ keysOf n))
        (fun cs => ∀ k, ((∃ s, (k, s) ∈ tsuffixesC cs) ↔ k ∈ keysOfC cs)) ?hn ?h2 ?h3,
      @children_induct α (fun n => ∀ k, ((∃ s, (k, s) ∈ tsuffixes n) ↔ k ∈ keysOf n))
        (fun cs => ∀ k, ((∃ s, (k, s) ∈ tsuffixesC cs) ↔ k ∈ keysOfC cs)) ?hn ?h2 ?h3⟩
  case hn =>
    intro rv p t d v m tc cs ih k
    constructor
    · rintro ⟨s, hs⟩
      simp only [tsuffixes, List.mem_append, List.mem_map] at hs
      rcases hs with hs | ⟨⟨k', s'⟩, hm, he⟩
      · cases t with
        | false => simp at hs
        | true =>
          simp only [if_pos] at hs
          simp only [List.mem_singleton, Prod.mk.injEq] at hs
          simp [keysOf, hs.1]
      · simp only [Prod.mk.injEq] at he
        obtain ⟨h1, h2⟩ := he
        subst h1
        have hkc : k' ∈ keysOfC cs := (ih k').1 ⟨s', hm⟩
        simp [keysOf, hkc]
    · intro hk
      simp only [keysOf, List.mem_append] at hk
      rcases hk with hk | hk
      · cases t with
        | false => simp at hk
        | true =>
          simp only [if_pos, List.mem_singleton] at hk
          subst hk
          exact ⟨[], by simp [tsuffixes]⟩
      · obtain ⟨s', hs'⟩ := (ih k).2 hk
        refine ⟨rv :: s', ?_⟩
        simp only [tsuffixes, List.mem_append, List.mem_map]
        exact Or.inr ⟨⟨k, s'⟩, hs', rfl⟩
  case h2 => intro k; simp [tsuffixesC, keysOfC]
  case h3 =>
    intro r c rest ihc ihr k
    constructor
    · rintro ⟨s, hs⟩
      simp only [tsuffixesC, List.mem_append] at hs
      simp only [keysOfC, List.mem_append]
      rcases hs with hs | hs
      · exact Or.inl ((ihr k).1 ⟨s, hs⟩)
      · exact Or.inr ((ihc k).1 ⟨s, hs⟩)
    · intro hk
      simp only [keysOfC, List.mem_append] at hk
      rcases hk with hk | hk
      · obtain ⟨s, hs⟩ := (ihr k).2 hk
        exact ⟨s, by simp only [tsuffixesC, List.mem_append]; exact Or.inl hs⟩
      · obtain ⟨s, hs⟩ := (ihc k).2 hk
        exact ⟨s, by simp only [tsuffixesC, List.mem_append]; exact Or.inr hs⟩

/-! ### The mask is a safe over-approximation of every remaining suffix -/

theorem maskOk_cover_pair :
    (∀ (n : TrieNode α), maskOk n = true → ∀ k s, (k, s) ∈ tsuffixes n →
      bitsub (maskruneslice s) n.mask = true) ∧
    (∀ (cs : Children α) (pm : Nat), maskOkC pm cs = true → ∀ k s, (k, s) ∈ tsuffixesC cs →
      bitsub (maskruneslice s) pm = true) := by
  refine
    ⟨@trieNode_induct α
        (fun n => maskOk n = true → ∀ k s, (k, s) ∈ tsuffixes n →
          bitsub (maskruneslice s) n.mask = true)
        (fun cs => ∀ pm : Nat, maskOkC pm cs = true → ∀ k s, (k, s) ∈ tsuffixesC cs →
          bitsub (maskruneslice s) pm = true) ?hn ?h2 ?h3,
      @children_induct α
        (fun n => maskOk n = true → ∀ k s, (k, s) ∈ tsuffixes n →
          bitsub (maskruneslice s) n.mask = true)
        (fun cs => ∀ pm : Nat, maskOkC pm cs = true → ∀ k s, (k, s) ∈ tsuffixesC cs →
          bitsub (maskruneslice s) pm = true) ?hn ?h2 ?h3⟩
  case hn =>
    intro rv p t d v m tc cs ih hok k s hmem
    simp only [maskOk, Bool.and_eq_true] at hok
    simp only [tsuffixes, List.mem_append, List.mem_map] at hmem
    rcases hmem with hself | ⟨⟨k', s'⟩, hmem', heq⟩
    · have : s = [] := by
        cases t <;> simp_all
      subst this
      simpa [maskruneslice] using bitsub_zero m
    · simp only [Prod.mk.injEq] at heq
      obtain ⟨h1, h2⟩ := heq
      subst h1
      rw [mask_mk, ← h2, maskruneslice_cons]
      exact bitsub_or hok.1 (ih m hok.2 k' s' hmem')
  case h2 => intro pm _ k s hmem; simp [tsuffixesC] at hmem
  case h3 =>
    intro r c rest ihc ihr pm hok k s hmem
    simp only [maskOkC, Bool.and_eq_true] at hok
    simp only [tsuffixesC, List.mem_append] at hmem
    rcases hmem with hmem | hmem
    · exact ihr pm hok.2 k s hmem
    · exact bitsub_trans (ihc hok.1.2 k s hmem) hok.1.1

/-! ### Chain characterization of suffixes on well-formed tries -/

theorem isEmpty_eq_nil {cs : Children α} (h : cs.isEmpty = true) : cs = .nil := by
  cases cs with
  | nil => rfl
  | cons r c rest => simp [Children.isEmpty] at h

theorem drop_of_prefix_snoc {q k : List Char} {r : Char}
    (h : List.IsPrefix (q ++ [r]) k) :
    k.drop q.length = r :: k.drop (q.length + 1) := by
  obtain ⟨rest, rfl⟩ := h
  rw [List.append_assoc]
  rw [List.drop_left q ([r] ++ rest)]
  have : q.length + 1 = (q ++ [r]).length := by simp
  rw [this, ← List.append_assoc, List.drop_left]
  simp

theorem prefix_drop_snoc {q : List Char} {r : Char} (k : List Char)
    (h : List.IsPrefix (q ++ [r]) k) : List.IsPrefix q k := by
  obtain ⟨rest, rfl⟩ := h
  exact ⟨[r] ++ rest, by simp⟩

theorem tsuffixes_chain_pair :
    (∀ (c : TrieNode α), ∀ q : List Char, c.term = false →
      structWf (q ++ [c.rval]) c = true →
      ((∀ k, k ∈ keysOf c → List.IsPrefix (q ++ [c.rval]) k) ∧
       (∀ k s, ((k, s) ∈ tsuffixes c ↔ k ∈ keysOf c ∧ s = k.drop q.length)))) ∧
    (∀ (cs : Children α), ∀ q : List Char, structWfC q cs = true →
      ((∀ k, k ∈ keysOfC cs → List.IsPrefix q k) ∧
       (∀ k s, ((k, s) ∈ tsuffixesC cs ↔ k ∈ keysOfC cs ∧ s = k.drop q.length)))) := by
  refine
    ⟨@trieNode_induct α
        (fun c => ∀ q : List Char, c.term = false → structWf (q ++ [c.rval]) c = true →
          ((∀ k, k ∈ keysOf c → List.IsPrefix (q ++ [c.rval]) k) ∧
           (∀ k s, ((k, s) ∈ tsuffixes c ↔ k ∈ keysOf c ∧ s = k.drop q.length))))
        (fun cs => ∀ q : List Char, structWfC q cs = true →
          ((∀ k, k ∈ keysOfC cs → List.IsPrefix q k) ∧
           (∀ k s, ((k, s) ∈ tsuffixesC cs ↔ k ∈ keysOfC cs ∧ s = k.drop q.length))))
        ?hn ?h2 ?h3,
      @children_induct α
        (fun c => ∀ q : List Char, c.term = false → structWf (q ++ [c.rval]) c = true →
          ((∀ k, k ∈ keysOf c → List.IsPrefix (q ++ [c.rval]) k) ∧
           (∀ k s, ((k, s) ∈ tsuffixes c ↔ k ∈ keysOf c ∧ s = k.drop q.length))))
        (fun cs => ∀ q : List Char, structWfC q cs = true →
          ((∀ k, k ∈ keysOfC cs → List.IsPrefix q k) ∧
           (∀ k s, ((k, s) ∈ tsuffixesC cs ↔ k ∈ keysOfC cs ∧ s = k.drop q.length))))
        ?hn ?h2 ?h3⟩
  case hn =>
    intro rv p t d v m tc cs ih q hterm hwf
    simp only [term_mk] at hterm
    subst hterm
    simp only [structWf, rval_mk] at hwf
    obtain ⟨hpref, hpairs⟩ := ih (q ++ [rv]) hwf
    have hkeys : keysOf (TrieNode.mk rv p false d v m tc cs) = keysOfC cs := by
      simp [keysOf]
    have hlen : (q ++ [rv]).length = q.length + 1 := by simp
    constructor
    · intro k hk
      rw [hkeys] at hk
      exact hpref k hk
    · intro k s
      rw [hkeys]
      constructor
      · intro hmem
        simp only [tsuffixes, List.mem_append, List.mem_map] at hmem
        rcases hmem with hself | ⟨⟨k', s'⟩, hmem', heq⟩
        · simp at hself
        · simp only [Prod.mk.injEq] at heq
          obtain ⟨h1, h2⟩ := heq
          subst h1
          obtain ⟨hk, hs'⟩ := (hpairs k' s').1 hmem'
          rw [hlen] at hs'
          refine ⟨hk, ?_⟩
          rw [← h2, hs', drop_of_prefix_snoc (hpref k' hk)]
      · rintro ⟨hk, hs⟩
        have hpair : (k, k.drop (q.length + 1)) ∈ tsuffixesC cs :=
          (hpairs k _).2 ⟨hk, by rw [hlen]⟩
        simp only [tsuffixes, List.mem_append, List.mem_map]
        refine Or.inr ⟨⟨k, k.drop (q.length + 1)⟩, hpair, ?_⟩
        simp only [Prod.mk.injEq, true_and]
        rw [hs, drop_of_prefix_snoc (hpref k hk)]
  case h2 =>
    intro q _
    refine ⟨fun k hk => by simp [keysOfC] at hk, fun k s => ?_⟩
    simp [tsuffixesC, keysOfC]
  case h3 =>
    intro r c rest ihc ihr q hwf
    simp only [structWfC, Bool.and_eq_true] at hwf
    obtain ⟨⟨⟨hrv, hnk⟩, hbranch⟩, hrest⟩ := hwf
    have hrv' : c.rval = r := by simpa using hrv
    obtain ⟨hprefr, hpairr⟩ := ihr q hrest
    by_cases hnul : r = nulChar
    · -- synthetic terminal child: a leaf with path = q
      rw [if_pos hnul] at hbranch
      simp only [Bool.and_eq_true] at hbranch
      obtain ⟨⟨hterm, hempty⟩, hpath⟩ := hbranch
      have hcnil : c.children = .nil := isEmpty_eq_nil hempty
      have hpath' : c.path = q := by simpa using hpath
      have hts : tsuffixes c = [(q, [])] := by
        cases c with
        | mk rv0 p0 t0 d0 v0 m0 tc0 cs0 =>
          simp only [children_mk] at hcnil
          simp only [term_mk] at hterm
          simp only [path_mk] at hpath'
          subst hcnil hterm hpath'
          simp [tsuffixes, tsuffixesC]
      have hks : keysOf c = [q] := by
        cases c with
        | mk rv0 p0 t0 d0 v0 m0 tc0 cs0 =>
          simp only [children_mk] at hcnil
          simp only [term_mk] at hterm
          simp only [path_mk] at hpath'
          subst hcnil hterm hpath'
          simp [keysOf, keysOfC]
      constructor
      · intro k hk
        simp only [keysOfC, List.mem_append, hks] at hk
        rcases hk with hk | hk
        · exact hprefr k hk
        · simp at hk; subst hk; exact List.prefix_refl _
      · intro k s
        simp only [tsuffixesC, keysOfC, List.mem_append, hts, hks, (hpairr k s)]
        constructor
        · rintro (⟨hk, hs⟩ | h)
          · exact ⟨Or.inl hk, hs⟩
          · simp at h
            obtain ⟨h1, h2⟩ := h
            subst h1; subst h2
            exact ⟨Or.inr (by simp), by simp⟩
        · rintro ⟨hk | hk, hs⟩
          · exact Or.inl ⟨hk, hs⟩
          · simp at hk; subst hk
            simp at hs; subst hs
            exact Or.inr (by simp)
    · -- ordinary rune child
      rw [if_neg hnul] at hbranch
      simp only [Bool.and_eq_true] at hbranch
      obtain ⟨hterm, hcwf⟩ := hbranch
      have hterm' : c.term = false := by
        cases hcterm : c.term
        · rfl
        · rw [hcterm] at hterm; simp at hterm
      obtain ⟨hprefc, hpairc⟩ := ihc q hterm' (by rw [hrv']; exact hcwf)
      rw [hrv'] at hprefc
      constructor
      · intro k hk
        simp only [keysOfC, List.mem_append] at hk
        rcases hk with hk | hk
        · exact hprefr k hk
        · exact prefix_drop_snoc k (hprefc k hk)
      · intro k s
        simp only [tsuffixesC, keysOfC, List.mem_append, (hpairr k s), (hpairc k s)]
        constructor
        · rintro (⟨hk, hs⟩ | ⟨hk, hs⟩)
          · exact ⟨Or.inl hk, hs⟩
          · exact ⟨Or.inr hk, hs⟩
        · rintro ⟨hk | hk, hs⟩
          · exact Or.inl ⟨hk, hs⟩
          · exact Or.inr ⟨hk, hs⟩

/-! ### The fuzzy search returns exactly the subsequence matches -/

theorem sublist_cons_ne {a b : Char} {l s : List Char} (h : a ≠ b) :
    (a :: l).Sublist (b :: s) ↔ (a :: l).Sublist s := by
  constructor
  · intro hs
    cases hs with
    | cons _ h2 => exact h2
    | cons₂ => exact absurd rfl h
  · intro hs
    exact hs.cons b

theorem structWf_termNul_pair :
    (∀ (n : TrieNode α), ∀ pre, structWf pre n = true → termNulC n.children = true) ∧
    (∀ (cs : Children α), ∀ pre, structWfC pre cs = true → termNulC cs = true) := by
  refine
    ⟨@trieNode_induct α (fun n => ∀ pre, structWf pre n = true → termNulC n.children = true)
        (fun cs => ∀ pre, structWfC pre cs = true → termNulC cs = true) ?hn ?h2 ?h3,
      @children_induct α (fun n => ∀ pre, structWf pre n = true → termNulC n.children = true)
        (fun cs => ∀ pre, structWfC pre cs = true → termNulC cs = true) ?hn ?h2 ?h3⟩
  case hn =>
    intro rv p t d v m tc cs ih pre hwf
    simp only [structWf] at hwf
    simpa using ih pre hwf
  case h2 => intro pre _; simp [termNulC]
  case h3 =>
    intro r c rest ihc ihr pre hwf
    simp only [structWfC, Bool.and_eq_true] at hwf
    obtain ⟨⟨⟨hrv, _⟩, hbranch⟩, hrest⟩ := hwf
    have hrv' : c.rval = r := by simpa using hrv
    simp only [termNulC, Bool.and_eq_true]
    refine ⟨?_, ihr pre hrest⟩
    by_cases hnul : r = nulChar
    · rw [if_pos hnul] at hbranch
      simp only [Bool.and_eq_true] at hbranch
      obtain ⟨⟨hterm, hempty⟩, _⟩ := hbranch
      have hcnil : c.children = .nil := isEmpty_eq_nil hempty
      cases c with
      | mk rv0 p0 t0 d0 v0 m0 tc0 cs0 =>
        simp only [children_mk] at hcnil
        simp only [rval_mk] at hrv'
        subst hcnil hrv'
        simp [termNul, termNulC, hnul]
    · rw [if_neg hnul] at hbranch
      simp only [Bool.and_eq_true] at hbranch
      obtain ⟨hterm, hcwf⟩ := hbranch
      have htn := ihc (pre ++ [r]) hcwf
      cases c with
      | mk rv0 p0 t0 d0 v0 m0 tc0 cs0 =>
        simp only [term_mk, Bool.not_eq_true'] at hterm
        subst hterm
        simp only [children_mk] at htn
        simp [termNul, htn]

/-- Membership in the suffix pairs of a node, by shape. -/
theorem mem_tsuffixes_mk (rv : Char) (p : List Char) (t : Bool) (d : Int)
    (v : Option α) (m : Nat) (tc : Int) (cs : Children α) (k s : List Char) :
    ((k, s) ∈ tsuffixes (.mk rv p t d v m tc cs)) ↔
      ((t = true ∧ k = p ∧ s = []) ∨ ∃ s', s = rv :: s' ∧ (k, s') ∈ tsuffixesC cs) := by
  constructor
  · intro h
    simp only [tsuffixes, List.mem_append, List.mem_map] at h
    rcases h with h | ⟨⟨k', s'⟩, hm, he⟩
    · cases t with
      | false => simp at h
      | true =>
        simp only [if_pos, List.mem_singleton, Prod.mk.injEq] at h
        exact Or.inl ⟨rfl, h.1, h.2⟩
    · simp only [Prod.mk.injEq] at he
      obtain ⟨h1, h2⟩ := he
      subst h1
      exact Or.inr ⟨s', h2.symm, hm⟩
  · intro h
    rcases h with ⟨ht, hk, hs⟩ | ⟨s', hs, hm⟩
    · subst ht hk hs
      simp [tsuffixes]
    · subst hs
      simp only [tsuffixes, List.mem_append, List.mem_map]
      exact Or.inr ⟨⟨k, s'⟩, hm, rfl⟩

theorem fuzzy_mem_pair :
    (∀ (n : TrieNode α), maskOk n = true → termNul n = true →
      ∀ rem : List Char, rem ≠ [] → (∀ c ∈ rem, c ≠ nulChar) →
      ∀ k, (k ∈ fuzzyNode rem n ↔ ∃ s, (k, s) ∈ tsuffixes n ∧ rem.Sublist s)) ∧
    (∀ (cs : Children α), ∀ pm : Nat, maskOkC pm cs = true → termNulC cs = true →
      ∀ rem : List Char, rem ≠ [] → (∀ c ∈ rem, c ≠ nulChar) →
      ∀ k, (k ∈ fuzzyRev rem cs ↔ ∃ s, (k, s) ∈ tsuffixesC cs ∧ rem.Sublist s)) := by
  refine
    ⟨@trieNode_induct α
        (fun n => maskOk n = true → termNul n = true →
          ∀ rem : List Char, rem ≠ [] → (∀ c ∈ rem, c ≠ nulChar) →
          ∀ k, (k ∈ fuzzyNode rem n ↔ ∃ s, (k, s) ∈ tsuffixes n ∧ rem.Sublist s))
        (fun cs => ∀ pm : Nat, maskOkC pm cs = true → termNulC cs = true →
          ∀ rem : List Char, rem ≠ [] → (∀ c ∈ rem, c ≠ nulChar) →
          ∀ k, (k ∈ fuzzyRev rem cs ↔ ∃ s, (k, s) ∈ tsuffixesC cs ∧ rem.Sublist s))
        ?hn ?h2 ?h3,
      @children_induct α
        (fun n => maskOk n = true → termNul n = true →
          ∀ rem : List Char, rem ≠ [] → (∀ c ∈ rem, c ≠ nulChar) →
          ∀ k, (k ∈ fuzzyNode rem n ↔ ∃ s, (k, s) ∈ tsuffixes n ∧ rem.Sublist s))
        (fun cs => ∀ pm : Nat, maskOkC pm cs = true → termNulC cs = true →
          ∀ rem : List Char, rem ≠ [] → (∀ c ∈ rem, c ≠ nulChar) →
          ∀ k, (k ∈ fuzzyRev rem cs ↔ ∃ s, (k, s) ∈ tsuffixesC cs ∧ rem.Sublist s))
        ?hn ?h2 ?h3⟩
  case hn =>
    intro rv p t d v m tc cs ih hok0 hnul0 rem hne hnf k
    obtain ⟨c0, rem', rfl⟩ : ∃ c0 rem', rem = c0 :: rem' := by
      cases rem with
      | nil => exact absurd rfl hne
      | cons a b => exact ⟨a, b, rfl⟩
    have hc0 : c0 ≠ nulChar := hnf c0 (by simp)
    have hok := hok0
    simp only [maskOk, Bool.and_eq_true] at hok
    have hnul := hnul0
    simp only [termNul, Bool.and_eq_true] at hnul
    by_cases hprune : m &&& maskruneslice (c0 :: rem') ≠ maskruneslice (c0 :: rem')
    · have hlhs : fuzzyNode (c0 :: rem') (TrieNode.mk rv p t d v m tc cs) = [] := by
        simp only [fuzzyNode]
        rw [if_pos hprune]
      rw [hlhs]
      simp only [List.not_mem_nil, false_iff]
      rintro ⟨s, hmem, hsub⟩
      have h1 : bitsub (maskruneslice (c0 :: rem')) (maskruneslice s) = true :=
        sublist_bitsub hsub
      have h2 : bitsub (maskruneslice s) m = true := by
        have := maskOk_cover_pair.1 (TrieNode.mk rv p t d v m tc cs) hok0 k s hmem
        simpa using this
      have h3 : bitsub (maskruneslice (c0 :: rem')) m = true := bitsub_trans h1 h2
      apply hprune
      rw [Nat.and_comm]
      simpa [bitsub] using h3
    · have hpass := of_not_not hprune
      by_cases hmatch : rv = c0
      · have htf : t = false := by
          cases hct : t
          · rfl
          · exfalso
            have : rv = nulChar := by
              have := hnul.1
              rw [hct] at this
              simpa using this
            exact hc0 (by rw [← hmatch, this])
        subst htf
        cases rem' with
        | nil =>
          have hlhs : fuzzyNode [c0] (TrieNode.mk rv p false d v m tc cs) =
              collect (TrieNode.mk rv p false d v m tc cs) := by
            simp only [fuzzyNode]
            rw [if_neg hprune, if_pos hmatch]
          rw [hlhs, mem_collect]
          constructor
          · intro hk
            simp only [keysOf, List.mem_append] at hk
            rcases hk with hk | hk
            · simp at hk
            · obtain ⟨s', hs'⟩ := tsuffixes_fst_pair.2 cs k |>.2 hk
              refine ⟨rv :: s', ?_, ?_⟩
              · exact (mem_tsuffixes_mk rv p false d v m tc cs k (rv :: s')).2
                  (Or.inr ⟨s', rfl, hs'⟩)
              · rw [hmatch]
                exact List.Sublist.cons₂ c0 (List.nil_sublist s')
          · rintro ⟨s, hmem, _⟩
            have := tsuffixes_fst_pair.1 (TrieNode.mk rv p false d v m tc cs) k |>.1 ⟨s, hmem⟩
            exact this
        | cons c1 rem'' =>
          have hlhs : fuzzyNode (c0 :: c1 :: rem'') (TrieNode.mk rv p false d v m tc cs) =
              fuzzyRev (c1 :: rem'') cs := by
            simp only [fuzzyNode]
            rw [if_neg hprune, if_pos hmatch]
          rw [hlhs]
          rw [ih m hok.2 hnul.2 (c1 :: rem'') (by simp) (fun c hc => hnf c (by simp [hc])) k]
          constructor
          · rintro ⟨s', hmem, hsub⟩
            refine ⟨rv :: s', (mem_tsuffixes_mk rv p false d v m tc cs k (rv :: s')).2
              (Or.inr ⟨s', rfl, hmem⟩), ?_⟩
            rw [hmatch]
            exact List.cons_sublist_cons.2 hsub
          · rintro ⟨s, hmem, hsub⟩
            rcases (mem_tsuffixes_mk rv p false d v m tc cs k s).1 hmem with
              ⟨h, _, _⟩ | ⟨s', rfl, hmem'⟩
            · simp at h
            · refine ⟨s', hmem', ?_⟩
              rw [hmatch] at hsub
              exact List.cons_sublist_cons.1 hsub
      · have hlhs : fuzzyNode (c0 :: rem') (TrieNode.mk rv p t d v m tc cs) =
            fuzzyRev (c0 :: rem') cs := by
          simp only [fuzzyNode]
          rw [if_neg hprune, if_neg hmatch]
        rw [hlhs]
        rw [ih m hok.2 hnul.2 (c0 :: rem') (by simp) hnf k]
        constructor
        · rintro ⟨s', hmem, hsub⟩
          refine ⟨rv :: s', (mem_tsuffixes_mk rv p t d v m tc cs k (rv :: s')).2
            (Or.inr ⟨s', rfl, hmem⟩), ?_⟩
          exact hsub.cons rv
        · rintro ⟨s, hmem, hsub⟩
          rcases (mem_tsuffixes_mk rv p t d v m tc cs k s).1 hmem with
            ⟨_, _, rfl⟩ | ⟨s', rfl, hmem'⟩
          · exact absurd hsub (by simp)
          · refine ⟨s', hmem', ?_⟩
            exact (sublist_cons_ne (fun h => hmatch h.symm)).1 hsub
  case h2 =>
    intro pm _ _ rem _ _ k
    simp [fuzzyRev, tsuffixesC]
  case h3 =>
    intro r c rest ihc ihr pm hok htn rem hne hnf k
    simp only [maskOkC, Bool.and_eq_true] at hok
    simp only [termNulC, Bool.and_eq_true] at htn
    have hiter := ihr pm hok.2 htn.2 rem hne hnf k
    have hitem := ihc hok.1.2 htn.1 rem hne hnf k
    simp only [fuzzyRev, List.mem_append, tsuffixesC]
    constructor
    · rintro (h | h)
      · obtain ⟨s, hs, hsub⟩ := hiter.1 h
        exact ⟨s, Or.inl hs, hsub⟩
      · obtain ⟨s, hs, hsub⟩ := hitem.1 h
        exact ⟨s, Or.inr hs, hsub⟩
    · rintro ⟨s, hs | hs, hsub⟩
      · exact Or.inl (hiter.2 ⟨s, hs, hsub⟩)
      · exact Or.inr (hitem.2 ⟨s, hs, hsub⟩)

/-- Counterexample to claim C1: on the query `"\x00"` (the sentinel rune),
the root node's `rval` 0 matches immediately and the whole key set is
returned — here `"abc"`, which does not contain `"\x00"` as a
subsequence. -/
theorem claim_C1_counterexample :
    FindByFuzzy (Add (New Nat) ['a', 'b', 'c'] 0) [nulChar] = [['a', 'b', 'c']] ∧
    ¬ List.Sublist [nulChar] ['a', 'b', 'c'] := by decide

theorem trieWf_parts {t : Trie α} (h : trieWf t = true) :
    t.root.rval = nulChar ∧ t.root.term = false ∧
    structWf [] t.root = true ∧ maskOk t.root = true := by
  simp only [trieWf, Bool.and_eq_true] at h
  obtain ⟨⟨⟨h1, h2⟩, h3⟩, h4⟩ := h
  refine ⟨by simpa using h1, ?_, h3, h4⟩
  simpa using h2

theorem trieWf_termNul {t : Trie α} (h : trieWf t = true) : termNul t.root = true := by
  obtain ⟨_, hterm, hwf, _⟩ := trieWf_parts h
  cases hr : t.root with
  | mk rv p tb d v m tc cs =>
    rw [hr] at hterm hwf
    simp only [term_mk] at hterm
    subst hterm
    have := structWf_termNul_pair.1 (TrieNode.mk rv p false d v m tc cs) [] hwf
    simp only [children_mk] at this
    simp [termNul, this]

/-- Claim C1 (amended): on a well-formed trie, for every query that avoids
the sentinel rune U+0000, `FindByFuzzy` returns exactly the stored keys
containing the query as an ordered (not necessarily contiguous)
subsequence of runes.  (For queries containing the sentinel the claim
fails: see the counterexample.) -/
theorem claim_C1_fuzzy_subsequence (t : Trie α) (q : List Char)
    (hwf : trieWf t = true) (hq : ∀ c ∈ q, c ≠ nulChar) (k : List Char) :
    k ∈ FindByFuzzy t q ↔ (k ∈ keysOf t.root ∧ q.Sublist k) := by
  obtain ⟨hrv, hterm, hwfs, hok⟩ := trieWf_parts hwf
  have htn := trieWf_termNul hwf
  have hsort : k ∈ FindByFuzzy t q ↔ k ∈ fuzzycollect t.root q := by
    simp only [FindByFuzzy, sortByKeys]
    exact List.mem_insertionSort byKeysLe
  rw [hsort]
  cases q with
  | nil =>
    simp only [fuzzycollect, mem_collect]
    simp [List.nil_sublist]
  | cons c0 q' =>
    have hc0 : c0 ≠ nulChar := hq c0 (by simp)
    have hmain := fuzzy_mem_pair.1 t.root hok htn (c0 :: q') (by simp) hq k
    have hfz : fuzzycollect t.root (c0 :: q') = fuzzyNode (c0 :: q') t.root := rfl
    rw [hfz, hmain]
    cases hr : t.root with
    | mk rv p tb d v m tc cs =>
      rw [hr] at hterm hrv hwfs
      simp only [term_mk] at hterm
      simp only [rval_mk] at hrv
      subst hterm hrv
      simp only [structWf] at hwfs
      have hchain := tsuffixes_chain_pair.2 cs [] hwfs
      constructor
      · rintro ⟨s, hmem, hsub⟩
        rcases (mem_tsuffixes_mk _ p false d v m tc cs k s).1 hmem with
          ⟨h, _, _⟩ | ⟨s', rfl, hmem'⟩
        · simp at h
        · obtain ⟨hk, hs'⟩ := (hchain.2 k s').1 hmem'
          simp only [List.length_nil, List.drop_zero] at hs'
          subst hs'
          refine ⟨by simp [keysOf, hk], ?_⟩
          exact (sublist_cons_ne hc0).1 hsub
      · rintro ⟨hk, hsub⟩
        have hk' : k ∈ keysOfC cs := by simpa [keysOf] using hk
        refine ⟨nulChar :: k, ?_, ?_⟩
        · exact (mem_tsuffixes_mk _ p false d v m tc cs k (nulChar :: k)).2
            (Or.inr ⟨k, rfl, (hchain.2 k k).2 ⟨hk', by simp⟩⟩)
        · exact hsub.cons nulChar

/-! ### Longest-prefix match -/

theorem prefix_cons_decomp {pr : List Char} {r : Char} {rest : List Char}
    (hne : pr ≠ []) (h : List.IsPrefix pr (r :: rest)) :
    ∃ pr', pr = r :: pr' ∧ List.IsPrefix pr' rest := by
  cases pr with
  | nil => exact absurd rfl hne
  | cons a l =>
    rw [List.cons_prefix_cons] at h
    exact ⟨l, by rw [h.1], h.2⟩

theorem findNode_cons {n c : TrieNode α} {r : Char} (hlk : n.children.lookup r = some c)
    (xs : List Char) : findNode n (r :: xs) = findNode c xs := by
  simp [findNode, hlk]

theorem hasTerminal_cons {n c : TrieNode α} {r : Char} (hlk : n.children.lookup r = some c)
    (xs : List Char) : hasTerminal n (r :: xs) = hasTerminal c xs := by
  simp [hasTerminal, findNode_cons hlk]

theorem hasTerminal_cons_none {n : TrieNode α} {r : Char}
    (hlk : n.children.lookup r = none) (xs : List Char) :
    hasTerminal n (r :: xs) = false := by
  simp [hasTerminal, findNode, hlk]

theorem hasTerminal_nil_lookup {n : TrieNode α} {tn : TrieNode α}
    (h : n.children.lookup nulChar = some tn) : hasTerminal n [] = tn.term := by
  simp [hasTerminal, findNode, h]

theorem hasTerminal_nil_none {n : TrieNode α} (h : n.children.lookup nulChar = none) :
    hasTerminal n [] = false := by
  simp [hasTerminal, findNode, h]

theorem lookup_keysOf_sub (cs : Children α) (r : Char) :
    ∀ c, cs.lookup r = some c → ∀ x, x ∈ keysOf c → x ∈ keysOfC cs := by
  induction cs using children_recList with
  | h2 => intro c h; simp [Children.lookup] at h
  | h3 r0 c0 rest ih =>
    intro c h x hx
    simp only [Children.lookup] at h
    by_cases h0 : r = r0
    · rw [if_pos h0] at h
      obtain rfl : c0 = c := by simpa using h
      simp only [keysOfC, List.mem_append]
      exact Or.inr hx
    · rw [if_neg h0] at h
      simp only [keysOfC, List.mem_append]
      exact Or.inl (ih c h x hx)

theorem term_path_mem_keysOf {c : TrieNode α} (ht : c.term = true) :
    c.path ∈ keysOf c := by
  cases c with
  | mk rv p t d v m tc cs =>
    simp only [term_mk] at ht
    subst ht
    simp [keysOf, path_mk]

theorem keysOfC_sub_keysOf (n : TrieNode α) : ∀ x, x ∈ keysOfC n.children → x ∈ keysOf n := by
  cases n with
  | mk rv p t d v m tc cs =>
    intro x hx
    simp only [children_mk] at hx
    simp [keysOf, hx]

theorem lookup_hasKey (cs : Children α) (r : Char) :
    ∀ c, cs.lookup r = some c → cs.hasKey r = true := by
  induction cs using children_recList with
  | h2 => intro c h; simp [Children.lookup] at h
  | h3 r0 c0 rest ih =>
    intro c h
    simp only [Children.lookup] at h
    by_cases h0 : r = r0
    · simp [Children.hasKey, h0]
    · rw [if_neg h0] at h
      simp [Children.hasKey, ih c h]

/-- The well-formedness clause attached to a binding found by lookup. -/
theorem lookup_structWf (cs : Children α) (pre : List Char) (r : Char) :
    structWfC pre cs = true → ∀ c, cs.lookup r = some c →
      c.rval = r ∧
      (if r = nulChar then c.term = true ∧ c.children = .nil ∧ c.path = pre
       else c.term = false ∧ structWf (pre ++ [r]) c = true) := by
  induction cs using children_recList with
  | h2 => intro _ c h; simp [Children.lookup] at h
  | h3 r0 c0 rest ih =>
    intro hwf c h
    simp only [structWfC, Bool.and_eq_true] at hwf
    obtain ⟨⟨⟨hrv, hnk⟩, hbranch⟩, hrest⟩ := hwf
    simp only [Children.lookup] at h
    by_cases h0 : r = r0
    · rw [if_pos h0] at h
      obtain rfl : c0 = c := by simpa using h
      subst h0
      refine ⟨by simpa using hrv, ?_⟩
      by_cases hnul : r = nulChar
      · rw [if_pos hnul] at hbranch ⊢
        simp only [Bool.and_eq_true] at hbranch
        exact ⟨hbranch.1.1, isEmpty_eq_nil hbranch.1.2, by simpa using hbranch.2⟩
      · rw [if_neg hnul] at hbranch ⊢
        simp only [Bool.and_eq_true] at hbranch
        exact ⟨by simpa using hbranch.1, hbranch.2⟩
    · rw [if_neg h0] at h
      exact ih hrest c h

/-- Soundness: on a well-formed subtree, walking to a terminal `nul` child
reaches the stored key equal to the chain. -/
theorem hasTerminal_sound :
    ∀ (q : List Char) (n : TrieNode α) (pre : List Char), structWf pre n = true →
      ∀ n' tn, findNode n q = some n' → n'.children.lookup nulChar = some tn →
        tn.term = true → tn.path = pre ++ q ∧ tn.path ∈ keysOf n := by
  intro q
  induction q with
  | nil =>
    intro n pre hwf n' tn hfind hlk ht
    obtain rfl : n = n' := by simpa [findNode] using hfind
    have hwfc : structWfC pre n.children = true := by
      cases n with
      | mk rv p t d v m tc cs => simpa [structWf] using hwf
    obtain ⟨_, hbr⟩ := lookup_structWf n.children pre nulChar hwfc tn hlk
    rw [if_pos rfl] at hbr
    refine ⟨by rw [hbr.2.2]; simp, ?_⟩
    exact keysOfC_sub_keysOf n tn.path
      (lookup_keysOf_sub n.children nulChar tn hlk tn.path (term_path_mem_keysOf ht))
  | cons r q' ih =>
    intro n pre hwf n' tn hfind hlk ht
    cases hlk0 : n.children.lookup r with
    | none => simp [findNode, hlk0] at hfind
    | some c =>
      rw [findNode_cons hlk0] at hfind
      have hwfc : structWfC pre n.children = true := by
        cases n with
        | mk rv p t d v m tc cs => simpa [structWf] using hwf
      obtain ⟨_, hbr⟩ := lookup_structWf n.children pre r hwfc c hlk0
      by_cases hnul : r = nulChar
      · rw [if_pos hnul] at hbr
        have hcnil := hbr.2.1
        exfalso
        cases q' with
        | nil =>
          obtain rfl : c = n' := by simpa [findNode] using hfind
          rw [hcnil] at hlk
          simp [Children.lookup] at hlk
        | cons a b =>
          rw [show findNode c (a :: b) = none by
            simp [findNode, hcnil, Children.lookup]] at hfind
          exact Option.noConfusion hfind
      · rw [if_neg hnul] at hbr
        obtain ⟨hpath, hmem⟩ := ih c (pre ++ [r]) hbr.2 n' tn hfind hlk ht
        refine ⟨by rw [hpath]; simp, ?_⟩
        exact keysOfC_sub_keysOf n tn.path
          (lookup_keysOf_sub n.children r c hlk0 tn.path hmem)

/-- Completeness: on a well-formed subtree every stored key is reachable as
a terminal walk. -/
theorem keysOf_hasTerminal_pair :
    (∀ (c : TrieNode α), ∀ q : List Char, c.term = false →
      structWf (q ++ [c.rval]) c = true →
      ∀ k, k ∈ keysOf c → hasTerminal c (k.drop (q.length + 1)) = true) ∧
    (∀ (cs : Children α), ∀ q : List Char, structWfC q cs = true →
      ∀ k, k ∈ keysOfC cs →
        (k = q ∧ ∃ tn, cs.lookup nulChar = some tn ∧ tn.term = true) ∨
        (∃ r c', cs.lookup r = some c' ∧ List.IsPrefix (q ++ [r]) k ∧
          hasTerminal c' (k.drop (q.length + 1)) = true)) := by
  refine
    ⟨@trieNode_induct α
        (fun c => ∀ q : List Char, c.term = false → structWf (q ++ [c.rval]) c = true →
          ∀ k, k ∈ keysOf c → hasTerminal c (k.drop (q.length + 1)) = true)
        (fun cs => ∀ q : List Char, structWfC q cs = true →
          ∀ k, k ∈ keysOfC cs →
            (k = q ∧ ∃ tn, cs.lookup nulChar = some tn ∧ tn.term = true) ∨
            (∃ r c', cs.lookup r = some c' ∧ List.IsPrefix (q ++ [r]) k ∧
              hasTerminal c' (k.drop (q.length + 1)) = true)) ?hn ?h2 ?h3,
      @children_induct α
        (fun c => ∀ q : List Char, c.term = false → structWf (q ++ [c.rval]) c = true →
          ∀ k, k ∈ keysOf c → hasTerminal c (k.drop (q.length + 1)) = true)
        (fun cs => ∀ q : List Char, structWfC q cs = true →
          ∀ k, k ∈ keysOfC cs →
            (k = q ∧ ∃ tn, cs.lookup nulChar = some tn ∧ tn.term = true) ∨
            (∃ r c', cs.lookup r = some c' ∧ List.IsPrefix (q ++ [r]) k ∧
              hasTerminal c' (k.drop (q.length + 1)) = true)) ?hn ?h2 ?h3⟩
  case hn =>
    intro rv p t d v m tc cs ih q hterm hwf k hk
    simp only [term_mk] at hterm
    subst hterm
    simp only [structWf, rval_mk] at hwf
    have hk' : k ∈ keysOfC cs := by simpa [keysOf] using hk
    rcases ih (q ++ [rv]) hwf k hk' with ⟨rfl, tn, hlk, htn⟩ | ⟨r', c', hlk, hpre, hht⟩
    · have hdrop : (q ++ [rv]).drop (q.length + 1) = [] := by simp
      rw [hdrop]
      rw [hasTerminal_nil_lookup (by simpa using hlk)]
      exact htn
    · have hdrop : k.drop (q.length + 1) = r' :: k.drop (q.length + 2) := by
        have h2 := drop_of_prefix_snoc (q := q ++ [rv]) hpre
        simpa using h2
      rw [hdrop]
      rw [hasTerminal_cons (by simpa using hlk)]
      have : k.drop ((q ++ [rv]).length + 1) = k.drop (q.length + 2) := by simp
      rw [this] at hht
      exact hht
  case h2 =>
    intro q _ k hk
    simp [keysOfC] at hk
  case h3 =>
    intro r c rest ihc ihr q hwf k hk
    simp only [structWfC, Bool.and_eq_true] at hwf
    obtain ⟨⟨⟨hrv, hnk⟩, hbranch⟩, hrest⟩ := hwf
    have hrv' : c.rval = r := by simpa using hrv
    simp only [keysOfC, List.mem_append] at hk
    rcases hk with hk | hk
    · -- the key lives in the remaining bindings; lift their lookups
      rcases ihr q hrest k hk with ⟨rfl, tn, hlk, htn⟩ | ⟨r', c', hlk, hpre, hht⟩
      · left
        refine ⟨rfl, tn, ?_, htn⟩
        have hkey : rest.hasKey nulChar = true := lookup_hasKey rest nulChar tn hlk
        have hne : nulChar ≠ r := by
          intro he
          rw [← he] at hnk
          simp [hkey] at hnk
        simp only [Children.lookup, if_neg hne]
        exact hlk
      · right
        refine ⟨r', c', ?_, hpre, hht⟩
        have hkey : rest.hasKey r' = true := lookup_hasKey rest r' c' hlk
        have hne : r' ≠ r := by
          intro he
          rw [← he] at hnk
          simp [hkey] at hnk
        simp only [Children.lookup, if_neg hne]
        exact hlk
    · -- the key lives under this binding
      by_cases hnul : r = nulChar
      · rw [if_pos hnul] at hbranch
        simp only [Bool.and_eq_true] at hbranch
        obtain ⟨⟨hterm, hempty⟩, hpath⟩ := hbranch
        have hcnil : c.children = .nil := isEmpty_eq_nil hempty
        have hkq : k = q := by
          cases c with
          | mk rv0 p0 t0 d0 v0 m0 tc0 cs0 =>
            simp only [children_mk] at hcnil
            simp only [term_mk] at hterm
            subst hcnil hterm
            simp [keysOf, keysOfC] at hk
            rw [hk]
            simpa using hpath
      -- r = nul: the nul binding itself
        left
        refine ⟨hkq, c, ?_, by simpa using hterm⟩
        simp [Children.lookup, if_pos hnul.symm]
      · rw [if_neg hnul] at hbranch
        simp only [Bool.and_eq_true] at hbranch
        obtain ⟨hterm, hcwf⟩ := hbranch
        have hterm' : c.term = false := by
          cases hct : c.term
          · rfl
          · rw [hct] at hterm; simp at hterm
        right
        refine ⟨r, c, by simp [Children.lookup], ?_, ?_⟩
        · have := (tsuffixes_chain_pair.1 c q hterm' (by rw [hrv']; exact hcwf)).1 k hk
          rw [hrv'] at this
          exact this
        · exact ihc q hterm' (by rw [hrv']; exact hcwf) k hk

theorem hasTerminal_inv {n : TrieNode α} {q : List Char} (h : hasTerminal n q = true) :
    ∃ n' tn, findNode n q = some n' ∧ n'.children.lookup nulChar = some tn ∧
      tn.term = true := by
  cases hfind : findNode n q with
  | none =>
    rw [show hasTerminal n q = false by simp [hasTerminal, hfind]] at h
    exact Bool.noConfusion h
  | some n' =>
    cases hlk : n'.children.lookup nulChar with
    | none =>
      rw [show hasTerminal n q = false by simp [hasTerminal, hfind, hlk]] at h
      exact Bool.noConfusion h
    | some tn =>
      refine ⟨n', tn, rfl, hlk, ?_⟩
      rw [show hasTerminal n q = tn.term by simp [hasTerminal, hfind, hlk]] at h
      exact h

/-- The walk of `FindLongestMatchingPrefix`: returns the initial candidate
when no nonempty prefix of the remaining key has a terminal below the node,
and otherwise the terminal of the longest such prefix. -/
theorem flmpWalk_spec :
    ∀ (rem : List Char) (node : TrieNode α) (found : Option (TrieNode α)),
      ((∀ pr, pr ≠ [] → List.IsPrefix pr rem → hasTerminal node pr = false) →
        flmpWalk node rem found = found) ∧
      (∀ pr0, pr0 ≠ [] → List.IsPrefix pr0 rem → hasTerminal node pr0 = true →
        ∃ prm tn, prm ≠ [] ∧ List.IsPrefix prm rem ∧
          (findNode node prm).bind (fun x => x.children.lookup nulChar) = some tn ∧
          tn.term = true ∧ flmpWalk node rem found = some tn ∧
          (∀ pr', pr' ≠ [] → List.IsPrefix pr' rem → hasTerminal node pr' = true →
            pr'.length ≤ prm.length)) := by
  intro rem
  induction rem with
  | nil =>
    intro node found
    exact ⟨fun _ => rfl, fun pr0 hne hpre _ => absurd (List.prefix_nil.mp hpre) hne⟩
  | cons r rest ih =>
    intro node found
    cases hlk : node.children.lookup r with
    | none =>
      have hwalk : flmpWalk node (r :: rest) found = found := by
        simp [flmpWalk, hlk]
      refine ⟨fun _ => hwalk, ?_⟩
      intro pr0 hne hpre hht
      obtain ⟨pr', rfl, hpre'⟩ := prefix_cons_decomp hne hpre
      rw [hasTerminal_cons_none hlk] at hht
      exact Bool.noConfusion hht
    | some n =>
      have hr1 : List.IsPrefix [r] (r :: rest) := ⟨rest, rfl⟩
      have hlift : ∀ pr', List.IsPrefix pr' rest → List.IsPrefix (r :: pr') (r :: rest) := by
        rintro pr' ⟨tl, rfl⟩
        exact ⟨tl, rfl⟩
      -- the three shapes of the recorded candidate
      rcases hnul : n.children.lookup nulChar with _ | tn
      case none =>
        have hwalk0 : flmpWalk node (r :: rest) found = flmpWalk n rest found := by
          simp only [flmpWalk, hlk, hnul]
        have hT : hasTerminal n [] = false := hasTerminal_nil_none hnul
        constructor
        · intro hno
          rw [hwalk0]
          exact (ih n found).1 (fun pr' h1 h2 => by
            rw [← hasTerminal_cons hlk]
            exact hno (r :: pr') (by simp) (hlift pr' h2))
        · intro pr0 hne hpre hht
          obtain ⟨pr0', rfl, hpre'⟩ := prefix_cons_decomp hne hpre
          rw [hasTerminal_cons hlk] at hht
          have hne0 : pr0' ≠ [] := by
            rintro rfl
            rw [hT] at hht
            exact Bool.noConfusion hht
          obtain ⟨prm, tn, h1, h2, h3, h4, h5, h6⟩ :=
            (ih n found).2 pr0' hne0 hpre' hht
          refine ⟨r :: prm, tn, by simp, hlift prm h2, ?_, h4, by rw [hwalk0]; exact h5, ?_⟩
          · rw [findNode_cons hlk]; exact h3
          · intro pr' hne' hpre'' hht'
            obtain ⟨pr'', rfl, hpre3⟩ := prefix_cons_decomp hne' hpre''
            rw [hasTerminal_cons hlk] at hht'
            rcases List.eq_nil_or_concat pr'' with rfl | _
            · rw [hT] at hht'
              exact Bool.noConfusion hht'
            · have hne2 : pr'' ≠ [] := by
                rintro rfl
                rw [hT] at hht'
                exact Bool.noConfusion hht'
              have := h6 pr'' hne2 hpre3 hht'
              simpa using Nat.succ_le_succ this
      case some =>
        cases htn : tn.term with
        | false =>
          have hwalk0 : flmpWalk node (r :: rest) found = flmpWalk n rest found := by
            simp only [flmpWalk, hlk, hnul, htn]
            rfl
          have hT : hasTerminal n [] = false := by
            rw [hasTerminal_nil_lookup hnul, htn]
          constructor
          · intro hno
            rw [hwalk0]
            exact (ih n found).1 (fun pr' h1 h2 => by
              rw [← hasTerminal_cons hlk]
              exact hno (r :: pr') (by simp) (hlift pr' h2))
          · intro pr0 hne hpre hht
            obtain ⟨pr0', rfl, hpre'⟩ := prefix_cons_decomp hne hpre
            rw [hasTerminal_cons hlk] at hht
            have hne0 : pr0' ≠ [] := by
              rintro rfl
              rw [hT] at hht
              exact Bool.noConfusion hht
            obtain ⟨prm, tn', h1, h2, h3, h4, h5, h6⟩ :=
              (ih n found).2 pr0' hne0 hpre' hht
            refine ⟨r :: prm, tn', by simp, hlift prm h2, ?_, h4, by rw [hwalk0]; exact h5, ?_⟩
            · rw [findNode_cons hlk]; exact h3
            · intro pr' hne' hpre'' hht'
              obtain ⟨pr'', rfl, hpre3⟩ := prefix_cons_decomp hne' hpre''
              rw [hasTerminal_cons hlk] at hht'
              have hne2 : pr'' ≠ [] := by
                rintro rfl
                rw [hT] at hht'
                exact Bool.noConfusion hht'
              have := h6 pr'' hne2 hpre3 hht'
              simpa using Nat.succ_le_succ this
        | true =>
          have hwalk0 : flmpWalk node (r :: rest) found = flmpWalk n rest (some tn) := by
            simp only [flmpWalk, hlk, hnul, htn]
            rfl
          have hT : hasTerminal n [] = true := by
            rw [hasTerminal_nil_lookup hnul, htn]
          have hcand : hasTerminal node [r] = true := by
            rw [hasTerminal_cons hlk]
            exact hT
          constructor
          · intro hno
            exact absurd hcand (by rw [hno [r] (by simp) hr1]; simp)
          · intro pr0 hne hpre hht
            by_cases hEx : ∃ pr', pr' ≠ [] ∧ List.IsPrefix pr' rest ∧ hasTerminal n pr' = true
            · obtain ⟨pw, hwne, hwpre, hwht⟩ := hEx
              obtain ⟨prm, tn', h1, h2, h3, h4, h5, h6⟩ :=
                (ih n (some tn)).2 pw hwne hwpre hwht
              refine ⟨r :: prm, tn', by simp, hlift prm h2, ?_, h4,
                by rw [hwalk0]; exact h5, ?_⟩
              · rw [findNode_cons hlk]; exact h3
              · intro pr' hne' hpre'' hht'
                obtain ⟨pr'', rfl, hpre3⟩ := prefix_cons_decomp hne' hpre''
                rw [hasTerminal_cons hlk] at hht'
                rcases eq_or_ne pr'' [] with rfl | hne2
                · simp
                · have := h6 pr'' hne2 hpre3 hht'
                  simpa using Nat.succ_le_succ this
            · have hno' : ∀ pr', pr' ≠ [] → List.IsPrefix pr' rest →
                  hasTerminal n pr' = false := by
                intro pr' h1 h2
                cases hb : hasTerminal n pr'
                · rfl
                · exact absurd ⟨pr', h1, h2, hb⟩ hEx
              have hwalkn : flmpWalk n rest (some tn) = some tn := (ih n (some tn)).1 hno'
              refine ⟨[r], tn, by simp, hr1, ?_, htn, by rw [hwalk0]; exact hwalkn, ?_⟩
              · rw [findNode_cons hlk]
                simp [findNode, hnul]
              · intro pr' hne' hpre'' hht'
                obtain ⟨pr'', rfl, hpre3⟩ := prefix_cons_decomp hne' hpre''
                rw [hasTerminal_cons hlk] at hht'
                rcases eq_or_ne pr'' [] with rfl | hne2
                · simp
                · exact absurd (hno' pr'' hne2 hpre3) (by rw [hht']; simp)

/-- Claim C4 (amended): on a well-formed trie, `FindLongestMatchingPrefix`
returns the longest *nonempty* stored key that is a literal string-prefix
of the query, together with that key's stored value, and reports absent iff
no nonempty stored key is a prefix of the query.  (The empty key, although
a literal prefix of everything, is never returned: see the
counterexample.) -/
theorem claim_C4_longest_match (t : Trie α) (key : List Char) (hwf : trieWf t = true) :
    (∀ p v, FindLongestMatchingPrefix t key = (p, v, true) →
      p ∈ keysOf t.root ∧ p ≠ [] ∧ List.IsPrefix p key ∧ Find t p = (v, true) ∧
      (∀ p', p' ∈ keysOf t.root → p' ≠ [] → List.IsPrefix p' key → p'.length ≤ p.length)) ∧
    ((FindLongestMatchingPrefix t key).2.2 = false ↔
      ∀ p' ∈ keysOf t.root, p' ≠ [] → ¬ List.IsPrefix p' key) := by
  obtain ⟨hrv, hterm, hwfs, hok⟩ := trieWf_parts hwf
  -- completeness bridge: stored keys are terminal walks
  have hbridge2 : ∀ k, k ∈ keysOf t.root → hasTerminal t.root k = true := by
    intro k hk
    have hwfc : structWfC [] t.root.children = true := by
      cases ht0 : t.root with
      | mk rv p tb d v m tc cs => rw [ht0] at hwfs; simpa [structWf] using hwfs
    have hk' : k ∈ keysOfC t.root.children := by
      cases ht0 : t.root with
      | mk rv p tb d v m tc cs =>
        rw [ht0] at hk hterm
        simp only [term_mk] at hterm
        subst hterm
        simpa [keysOf] using hk
    rcases keysOf_hasTerminal_pair.2 t.root.children [] hwfc k hk' with
      ⟨rfl, tn, hlk, htn⟩ | ⟨r, c', hlk, hpre, hht⟩
    · rw [hasTerminal_nil_lookup hlk]
      exact htn
    · obtain ⟨tl, rfl⟩ := hpre
      rw [show ([] ++ [r] : List Char) ++ tl = r :: tl by simp]
      rw [hasTerminal_cons hlk]
      simpa using hht
  -- soundness bridge: terminal walks are stored keys of the walked prefix
  have hbridge1 : ∀ pr tn, (findNode t.root pr).bind
      (fun x => x.children.lookup nulChar) = some tn → tn.term = true →
      tn.path = pr ∧ tn.path ∈ keysOf t.root ∧ Find t pr = (tn.value, true) := by
    intro pr tn hbind htn
    cases hfind : findNode t.root pr with
    | none => rw [hfind] at hbind; exact Option.noConfusion hbind
    | some n' =>
      rw [hfind] at hbind
      simp only [Option.some_bind] at hbind
      obtain ⟨hpath, hmem⟩ := hasTerminal_sound pr t.root [] hwfs n' tn hfind hbind htn
      refine ⟨by simpa using hpath, hmem, ?_⟩
      simp [Find, hfind, hbind, htn]
  constructor
  · intro p v hres
    cases hW : flmpWalk t.root key none with
    | none =>
      rw [FindLongestMatchingPrefix, hW] at hres
      exact absurd hres (by simp)
    | some tn0 =>
      rw [FindLongestMatchingPrefix, hW] at hres
      have hp : tn0.path = p := congrArg Prod.fst hres
      have hv : tn0.value = v := congrArg (fun x => x.2.1) hres
      by_cases hEx : ∃ pr, pr ≠ [] ∧ List.IsPrefix pr key ∧ hasTerminal t.root pr = true
      · obtain ⟨pw, hwne, hwpre, hwht⟩ := hEx
        obtain ⟨prm, tn, h1, h2, h3, h4, h5, h6⟩ :=
          (flmpWalk_spec key t.root none).2 pw hwne hwpre hwht
        have htt : tn = tn0 := by rw [hW] at h5; exact (Option.some.inj h5).symm
        rw [htt] at h3 h4
        obtain ⟨hpath, hmem, hfind⟩ := hbridge1 prm tn0 h3 h4
        have hpp : p = prm := by rw [← hp, hpath]
        subst hpp
        rw [hpath] at hmem
        refine ⟨hmem, h1, h2, by rw [← hv]; exact hfind, ?_⟩
        intro p' hp'mem hp'ne hp'pre
        exact h6 p' hp'ne hp'pre (hbridge2 p' hp'mem)
      · have hno : ∀ pr, pr ≠ [] → List.IsPrefix pr key →
            hasTerminal t.root pr = false := by
          intro pr h1 h2
          cases hb : hasTerminal t.root pr
          · rfl
          · exact absurd ⟨pr, h1, h2, hb⟩ hEx
        have := (flmpWalk_spec key t.root none).1 hno
        rw [hW] at this
        exact Option.noConfusion this
  · constructor
    · intro hflag p' hp'mem hp'ne hp'pre
      have hht := hbridge2 p' hp'mem
      obtain ⟨prm, tn, _, _, _, _, h5, _⟩ :=
        (flmpWalk_spec key t.root none).2 p' hp'ne hp'pre hht
      rw [FindLongestMatchingPrefix, h5] at hflag
      simp at hflag
    · intro hnone
      have hno : ∀ pr, pr ≠ [] → List.IsPrefix pr key →
          hasTerminal t.root pr = false := by
        intro pr h1 h2
        cases hb : hasTerminal t.root pr
        · rfl
        · obtain ⟨n', tn, hfind, hlk, htn⟩ := hasTerminal_inv hb
          obtain ⟨hpath, hmem, _⟩ := hbridge1 pr tn (by rw [hfind]; simpa) htn
          rw [hpath] at hmem
          exact absurd h2 (hnone pr hmem h1)
      have := (flmpWalk_spec key t.root none).1 hno
      rw [FindLongestMatchingPrefix, this]

theorem claim_C4_witness :
    FindLongestMatchingPrefix lmTrie (strK "fooo") = (strK "foo", some 1, true) ∧
    FindLongestMatchingPrefix lmTrie (strK "foretoldme") = (strK "foretold", some 2, true) ∧
    FindLongestMatchingPrefix lmTrie (strK "abc") = ([], none, false) ∧
    (∀ p' ∈ keysOf lmTrie.root, p' ≠ [] → ¬ List.IsPrefix p' (strK "abc")) := by
  refine ⟨by decide, by decide, by decide, ?_⟩
  exact (claim_C4_longest_match lmTrie (strK "abc") (by decide)).2.mp (by decide)

theorem claim_C1_witness :
    (strK "bfrza" ∈ FindByFuzzy fzTrie (strK "fz") ∧
      ¬ strK "frosty" ∈ FindByFuzzy fzTrie (strK "fz")) ∧
    FindByFuzzy fzTrie (strK "fz") = [strK "bfrza", strK "foo/bart/baz.go"] := by
  refine ⟨⟨?_, ?_⟩, by decide⟩
  · exact (claim_C1_fuzzy_subsequence fzTrie (strK "fz") (by decide) (by decide)
      (strK "bfrza")).mpr ⟨by decide, by decide⟩
  · intro h
    have := (claim_C1_fuzzy_subsequence fzTrie (strK "fz") (by decide) (by decide)
      (strK "frosty")).mp h
    exact absurd this (by decide)

/-! ### Masks are invisible to the structural observers -/

theorem insert_self_noop (cs : Children α) (r : Char) :
    ∀ x, cs.lookup r = some x → cs.insert r x = cs := by
  induction cs using children_recList with
  | h2 => intro x h; simp [Children.lookup] at h
  | h3 r0 c0 rest ih =>
    intro x h
    simp only [Children.lookup] at h
    by_cases h0 : r = r0
    · rw [if_pos h0] at h
      obtain rfl : c0 = x := by simpa using h
      simp [Children.insert, h0]
    · rw [if_neg h0] at h
      simp [Children.insert, h0, ih x h]

theorem insert_insert (cs : Children α) (r : Char) (x y : TrieNode α) :
    (cs.insert r x).insert r y = cs.insert r y := by
  induction cs using children_recList with
  | h2 => simp [Children.insert]
  | h3 r0 c0 rest ih =>
    by_cases h0 : r = r0 <;> simp [Children.insert, h0, ih]

theorem erase_insert (cs : Children α) (r : Char) (x : TrieNode α) :
    (cs.insert r x).erase r = cs.erase r := by
  induction cs using children_recList with
  | h2 => simp [Children.insert, Children.erase]
  | h3 r0 c0 rest ih =>
    by_cases h0 : r = r0 <;> simp [Children.insert, Children.erase, h0, ih]

@[simp] theorem strip_children (n : TrieNode α) :
    (stripMasks n).children = stripMasksC n.children := by cases n <;> rfl

@[simp] theorem strip_term (n : TrieNode α) : (stripMasks n).term = n.term := by
  cases n <;> rfl

@[simp] theorem strip_rval (n : TrieNode α) : (stripMasks n).rval = n.rval := by
  cases n <;> rfl

@[simp] theorem strip_path (n : TrieNode α) : (stripMasks n).path = n.path := by
  cases n <;> rfl

@[simp] theorem strip_value (n : TrieNode α) : (stripMasks n).value = n.value := by
  cases n <;> rfl

@[simp] theorem strip_termCount (n : TrieNode α) :
    (stripMasks n).termCount = n.termCount := by cases n <;> rfl

theorem stripC_lookup (cs : Children α) (r : Char) :
    (stripMasksC cs).lookup r = (cs.lookup r).map stripMasks := by
  induction cs using children_recList with
  | h2 => simp [stripMasksC, Children.lookup]
  | h3 r0 c0 rest ih =>
    by_cases h0 : r = r0 <;> simp [stripMasksC, Children.lookup, h0, ih]

theorem stripC_insert (cs : Children α) (r : Char) (x : TrieNode α) :
    stripMasksC (cs.insert r x) = (stripMasksC cs).insert r (stripMasks x) := by
  induction cs using children_recList with
  | h2 => simp [stripMasksC, Children.insert]
  | h3 r0 c0 rest ih =>
    by_cases h0 : r = r0 <;> simp [stripMasksC, Children.insert, h0, ih]

theorem stripC_erase (cs : Children α) (r : Char) :
    stripMasksC (cs.erase r) = (stripMasksC cs).erase r := by
  induction cs using children_recList with
  | h2 => simp [stripMasksC, Children.erase]
  | h3 r0 c0 rest ih =>
    by_cases h0 : r = r0
    · subst h0; simp [stripMasksC, Children.erase, ih]
    · simp [stripMasksC, Children.erase, h0, ih]

@[simp] theorem stripC_isEmpty (cs : Children α) :
    (stripMasksC cs).isEmpty = cs.isEmpty := by
  cases cs <;> rfl

theorem strip_withChildren (n : TrieNode α) (cs : Children α) :
    stripMasks (n.withChildren cs) = (stripMasks n).withChildren (stripMasksC cs) := by
  cases n <;> rfl

theorem strip_decTC (n : TrieNode α) : stripMasks (decTC n) = decTC (stripMasks n) := by
  cases n <;> rfl

theorem strip_recomputeMask (n : TrieNode α) :
    stripMasks (recomputeMask n) = stripMasks n := by
  cases n <;> rfl

theorem strip_findNode (n : TrieNode α) :
    ∀ p : List Char, findNode (stripMasks n) p = (findNode n p).map stripMasks := by
  intro p
  induction p generalizing n with
  | nil => simp [findNode]
  | cons c rest ih =>
    simp only [findNode, strip_children, stripC_lookup]
    cases h : n.children.lookup c with
    | none => simp
    | some ch => simp [ih ch]

theorem strip_modifyAt (t : TrieNode α) (p : List Char)
    (f g : TrieNode α → TrieNode α)
    (hfg : ∀ n, stripMasks (f n) = g (stripMasks n)) :
    stripMasks (modifyAt t p f) = modifyAt (stripMasks t) p g := by
  induction p generalizing t with
  | nil => simpa [modifyAt] using hfg t
  | cons c rest ih =>
    simp only [modifyAt, strip_children, stripC_lookup]
    cases h : t.children.lookup c with
    | none => simp
    | some ch =>
      simp only [Option.map_some']
      rw [strip_withChildren, stripC_insert, ih ch]

@[simp] theorem withChildren_children (n : TrieNode α) :
    n.withChildren n.children = n := by
  cases n <;> rfl

theorem strip_updMaskAlong (t : TrieNode α) :
    ∀ p : List Char, stripMasks (updMaskAlong t p) = stripMasks t := by
  intro p
  induction p generalizing t with
  | nil => simp [updMaskAlong, strip_recomputeMask]
  | cons c rest ih =>
    simp only [updMaskAlong]
    cases h : t.children.lookup c with
    | none => simp [strip_recomputeMask]
    | some ch =>
      rw [strip_recomputeMask, strip_withChildren, stripC_insert, ih ch]
      have hlk : (stripMasksC t.children).lookup c = some (stripMasks ch) := by
        rw [stripC_lookup, h]; rfl
      rw [insert_self_noop _ c _ hlk, ← strip_children, withChildren_children]

theorem strip_removeLoop (key : List Char) :
    ∀ (d : Nat) (t : TrieNode α),
      stripMasks (removeLoop key d t) = removeLoopS key d (stripMasks t) := by
  intro d
  induction d with
  | zero => intro t; rfl
  | succ e ih =>
    intro t
    rw [removeLoop, removeLoopS, ih]
    congr 1
    have h1 : stripMasks (modifyAt t (key.take (e + 1)) decTC) =
        modifyAt (stripMasks t) (key.take (e + 1)) decTC :=
      strip_modifyAt t _ decTC decTC strip_decTC
    rw [← h1, strip_findNode]
    cases hfind : findNode (modifyAt t (key.take (e + 1)) decTC) (key.take (e + 1)) with
    | none => simp
    | some nd =>
      simp only [Option.map_some']
      rw [strip_children, stripC_isEmpty]
      by_cases hempty : nd.children.isEmpty = true
      · rw [if_pos hempty, if_pos hempty]
        cases hdrop : key.drop e with
        | nil =>
          cases e with
          | zero => rfl
          | succ e2 => exact strip_updMaskAlong _ (key.take e2)
        | cons r rest2 =>
          have h2 := strip_modifyAt (modifyAt t (key.take (e + 1)) decTC) (key.take e)
            (fun p => p.withChildren (p.children.erase r))
            (fun p => p.withChildren (p.children.erase r))
            (fun n => by simp only [strip_withChildren, stripC_erase, strip_children])
          cases e with
          | zero => exact h2
          | succ e2 => rw [strip_updMaskAlong]; exact h2
      · rw [if_neg hempty, if_neg hempty]

/-! ### The structural skeleton of the upward pruning loop is `removeSimple` -/

theorem withChildren_withChildren (n : TrieNode α) (cs cs2 : Children α) :
    (n.withChildren cs).withChildren cs2 = n.withChildren cs2 := by
  cases n <;> rfl

theorem removeLoopS_succ (key : List Char) (d : Nat) (t : TrieNode α) :
    removeLoopS key (d + 1) t = removeLoopS key d (rlStep key d t) := rfl

theorem rlStep_shift (c : Char) (k' : List Char) (e : Nat) (t u : TrieNode α)
    (h : t.children.lookup c = some u) :
    rlStep (c :: k') (e + 1) t = t.withChildren (t.children.insert c (rlStep k' e u)) := by
  have hm1 : modifyAt t ((c :: k').take (e + 1 + 1)) decTC =
      t.withChildren (t.children.insert c (modifyAt u (k'.take (e + 1)) decTC)) := by
    rw [List.take_succ_cons]; simp [modifyAt, h]
  have hfn : findNode (modifyAt t ((c :: k').take (e + 1 + 1)) decTC)
      ((c :: k').take (e + 1 + 1)) =
      findNode (modifyAt u (k'.take (e + 1)) decTC) (k'.take (e + 1)) := by
    rw [hm1, List.take_succ_cons]; simp [findNode]
  unfold rlStep
  rw [hfn, List.drop_succ_cons]
  cases hf : findNode (modifyAt u (k'.take (e + 1)) decTC) (k'.take (e + 1)) with
  | none => rw [hm1]
  | some nd =>
    dsimp only
    by_cases hemp : nd.children.isEmpty = true
    · rw [if_pos hemp, if_pos hemp]
      cases hd : k'.drop e with
      | nil => rw [hm1]
      | cons r rest2 =>
        rw [hm1, List.take_succ_cons]
        simp [modifyAt, withChildren_withChildren, insert_insert]
    · rw [if_neg hemp, if_neg hemp, hm1]

theorem removeLoopS_shift (c : Char) (k' : List Char) :
    ∀ (e : Nat) (t u : TrieNode α), t.children.lookup c = some u →
      removeLoopS (c :: k') (e + 1) t =
        removeLoopS (c :: k') 1 (t.withChildren (t.children.insert c (removeLoopS k' e u))) := by
  intro e
  induction e with
  | zero =>
    intro t u h
    rw [show removeLoopS k' 0 u = u from rfl, insert_self_noop _ c u h, withChildren_children]
  | succ e2 ih =>
    intro t u h
    rw [removeLoopS_succ (c :: k') (e2 + 1) t, rlStep_shift c k' e2 t u h]
    rw [ih (t.withChildren (t.children.insert c (rlStep k' e2 u))) (rlStep k' e2 u) (by simp)]
    rw [removeLoopS_succ k' e2 u]
    simp only [children_withChildren, withChildren_withChildren, insert_insert]

theorem removeLoopS_removeSimple :
    ∀ (k : List Char) (s : TrieNode α), (findNode s k).isSome = true →
      decTC (removeLoopS k k.length
        (modifyAt s k (fun n => n.withChildren (n.children.erase nulChar)))) =
      removeSimple s k := by
  intro k
  induction k with
  | nil => intro s _; rfl
  | cons c k' ih =>
    intro s hs
    obtain ⟨ch, hch, hrest⟩ :
        ∃ ch, s.children.lookup c = some ch ∧ (findNode ch k').isSome = true := by
      cases hl : s.children.lookup c with
      | none =>
        rw [show findNode s (c :: k') = none from by simp [findNode, hl]] at hs
        simp at hs
      | some ch0 =>
        refine ⟨ch0, rfl, ?_⟩
        rw [show findNode s (c :: k') = findNode ch0 k' from by simp [findNode, hl]] at hs
        exact hs
    have hm : modifyAt s (c :: k') (fun n => n.withChildren (n.children.erase nulChar)) =
        s.withChildren (s.children.insert c
          (modifyAt ch k' (fun n => n.withChildren (n.children.erase nulChar)))) := by
      simp [modifyAt, hch]
    rw [show (c :: k').length = k'.length + 1 from rfl, hm]
    rw [removeLoopS_shift c k' k'.length
      (s.withChildren (s.children.insert c
        (modifyAt ch k' (fun n => n.withChildren (n.children.erase nulChar)))))
      (modifyAt ch k' (fun n => n.withChildren (n.children.erase nulChar))) (by simp)]
    simp only [children_withChildren, withChildren_withChildren, insert_insert]
    rw [show removeSimple s (c :: k') =
        (if (removeSimple ch k').children.isEmpty
          then decTC (s.withChildren (s.children.erase c))
          else decTC (s.withChildren (s.children.insert c (removeSimple ch k')))) from by
      simp [removeSimple, hch]]
    rw [← ih ch hrest]
    have hm2 : modifyAt (s.withChildren (s.children.insert c
          (removeLoopS k' k'.length
            (modifyAt ch k' (fun n => n.withChildren (n.children.erase nulChar))))))
        ((c :: k').take (0 + 1)) decTC =
        s.withChildren (s.children.insert c (decTC
          (removeLoopS k' k'.length
            (modifyAt ch k' (fun n => n.withChildren (n.children.erase nulChar)))))) := by
      simp [modifyAt, withChildren_withChildren, insert_insert]
    have hf2 : findNode (s.withChildren (s.children.insert c (decTC
          (removeLoopS k' k'.length
            (modifyAt ch k' (fun n => n.withChildren (n.children.erase nulChar)))))))
        ((c :: k').take (0 + 1)) = some (decTC
          (removeLoopS k' k'.length
            (modifyAt ch k' (fun n => n.withChildren (n.children.erase nulChar))))) := by
      simp [findNode]
    rw [show removeLoopS (c :: k') 1 = rlStep (c :: k') 0 from rfl]
    unfold rlStep
    rw [hm2, hf2]
    dsimp only
    by_cases hemp : (decTC (removeLoopS k' k'.length
        (modifyAt ch k' (fun n => n.withChildren (n.children.erase nulChar))))).children.isEmpty
        = true
    · rw [if_pos hemp, if_pos hemp]
      simp [modifyAt, erase_insert, withChildren_withChildren]
    · rw [if_neg hemp, if_neg hemp]

/-- `Remove` when the key is stored (the firing case): the removed value,
the size decrement, and the structural effect `removeSimple` seen through
`stripMasks`. -/
theorem Remove_fire (t : Trie α) (key : List Char) (node target : TrieNode α)
    (h1 : findNode t.root key = some node) (h2 : node.children.lookup nulChar = some target)
    (h3 : target.term = true) :
    (Remove t key).1 = target.value ∧ (Remove t key).2.size = t.size - 1 ∧
    stripMasks (Remove t key).2.root = removeSimple (stripMasks t.root) key := by
  have hsome : (findNode (stripMasks t.root) key).isSome = true := by
    rw [strip_findNode, h1]; rfl
  have hstrip1 : stripMasks (modifyAt t.root key
        (fun n => n.withChildren (n.children.erase nulChar)))
      = modifyAt (stripMasks t.root) key (fun n => n.withChildren (n.children.erase nulChar)) :=
    strip_modifyAt _ _ _ _
      (fun n => by simp only [strip_withChildren, stripC_erase, strip_children])
  have hmain := removeLoopS_removeSimple key (stripMasks t.root) hsome
  cases key with
  | nil =>
    simp only [Remove, h1, h2, h3, if_true, List.length_nil]
    refine ⟨trivial, trivial, ?_⟩
    rw [strip_updMaskAlong]
    rw [show ∀ x : TrieNode α, modifyAt x [] decTC = decTC x from fun _ => rfl]
    rw [show ∀ x : TrieNode α, removeLoop ([] : List Char) 0 x = x from fun _ => rfl]
    rw [strip_decTC, hstrip1]
    exact hmain
  | cons a b =>
    simp only [Remove, h1, h2, h3, if_true]
    refine ⟨trivial, trivial, ?_⟩
    rw [strip_updMaskAlong]
    rw [show ∀ x : TrieNode α, modifyAt x [] decTC = decTC x from fun _ => rfl]
    rw [strip_decTC, strip_removeLoop, strip_updMaskAlong, hstrip1]
    exact hmain

/-- `Remove` when the key is not stored: nothing happens. -/
theorem Remove_nofire (t : Trie α) (key : List Char)
    (h : hasTerminal t.root key = false) : Remove t key = (none, t) := by
  cases hf : findNode t.root key with
  | none => simp [Remove, hf]
  | some node =>
    cases hlk : node.children.lookup nulChar with
    | none => simp [Remove, hf, hlk]
    | some target =>
      have ht : target.term = false := by
        simpa [hasTerminal, hf, hlk] using h
      simp [Remove, hf, hlk, ht]

/-! ### Children-level bookkeeping: keys, terminal counting, invariants -/

theorem hasKey_insert_false (cs : Children α) (r q : Char) (x : TrieNode α)
    (hne : q ≠ r) (h : cs.hasKey q = false) : (cs.insert r x).hasKey q = false := by
  induction cs using children_recList with
  | h2 => simp [Children.insert, Children.hasKey, hne]
  | h3 r0 c0 rest ih =>
    simp only [Children.hasKey, Bool.or_eq_false_iff] at h
    obtain ⟨h1, h2⟩ := h
    by_cases h0 : r = r0
    · subst h0
      simp only [Children.insert, if_pos rfl, Children.hasKey, Bool.or_eq_false_iff]
      exact ⟨h1, h2⟩
    · simp only [Children.insert, if_neg h0, Children.hasKey, Bool.or_eq_false_iff]
      exact ⟨h1, ih h2⟩

theorem hasKey_erase_false (cs : Children α) (r q : Char)
    (h : cs.hasKey q = false) : (cs.erase r).hasKey q = false := by
  induction cs using children_recList with
  | h2 => simpa [Children.erase] using h
  | h3 r0 c0 rest ih =>
    simp only [Children.hasKey, Bool.or_eq_false_iff] at h
    obtain ⟨h1, h2⟩ := h
    by_cases h0 : r = r0
    · subst h0; simpa [Children.erase] using ih h2
    · simp only [Children.erase, if_neg h0, Children.hasKey, Bool.or_eq_false_iff]
      exact ⟨h1, ih h2⟩

theorem erase_absent (cs : Children α) (r : Char) (h : cs.hasKey r = false) :
    cs.erase r = cs := by
  induction cs using children_recList with
  | h2 => rfl
  | h3 r0 c0 rest ih =>
    simp only [Children.hasKey, Bool.or_eq_false_iff] at h
    obtain ⟨h1, h2⟩ := h
    have h0 : r ≠ r0 := by simpa using h1
    simp [Children.erase, h0, ih h2]

theorem lookup_tcOkC (cs : Children α) (r : Char) :
    tcOkC cs = true → ∀ c, cs.lookup r = some c → tcOk c = true := by
  induction cs using children_recList with
  | h2 => intro _ c h; simp [Children.lookup] at h
  | h3 r0 c0 rest ih =>
    intro hok c h
    simp only [tcOkC, Bool.and_eq_true] at hok
    simp only [Children.lookup] at h
    by_cases h0 : r = r0
    · rw [if_pos h0] at h
      obtain rfl : c0 = c := by simpa using h
      exact hok.1
    · rw [if_neg h0] at h
      exact ih hok.2 c h

theorem tcOkC_insert (cs : Children α) (r : Char) (x : TrieNode α)
    (hcs : tcOkC cs = true) (hx : tcOk x = true) : tcOkC (cs.insert r x) = true := by
  induction cs using children_recList with
  | h2 => simp [Children.insert, tcOkC, hx]
  | h3 r0 c0 rest ih =>
    simp only [tcOkC, Bool.and_eq_true] at hcs
    by_cases h0 : r = r0
    · subst h0
      simp only [Children.insert, if_pos rfl, tcOkC, Bool.and_eq_true]
      exact ⟨hx, hcs.2⟩
    · simp only [Children.insert, if_neg h0, tcOkC, Bool.and_eq_true]
      exact ⟨hcs.1, ih hcs.2⟩

theorem tcOkC_erase (cs : Children α) (r : Char)
    (hcs : tcOkC cs = true) : tcOkC (cs.erase r) = true := by
  induction cs using children_recList with
  | h2 => simpa [Children.erase] using hcs
  | h3 r0 c0 rest ih =>
    simp only [tcOkC, Bool.and_eq_true] at hcs
    by_cases h0 : r = r0
    · subst h0
      simpa [Children.erase] using ih hcs.2
    · simp only [Children.erase, if_neg h0, tcOkC, Bool.and_eq_true]
      exact ⟨hcs.1, ih hcs.2⟩

theorem countTermC_insert_mem (cs : Children α) (r : Char) (x : TrieNode α) :
    ∀ ch, cs.lookup r = some ch →
      countTermC (cs.insert r x) + countTerm ch = countTermC cs + countTerm x := by
  induction cs using children_recList with
  | h2 => intro ch h; simp [Children.lookup] at h
  | h3 r0 c0 rest ih =>
    intro ch h
    simp only [Children.lookup] at h
    by_cases h0 : r = r0
    · rw [if_pos h0] at h
      obtain rfl : c0 = ch := by simpa using h
      subst h0
      simp only [Children.insert, if_pos rfl, countTermC]
      omega
    · rw [if_neg h0] at h
      simp only [Children.insert, if_neg h0, countTermC]
      have := ih ch h
      omega

theorem countTermC_insert_new (cs : Children α) (r : Char) (x : TrieNode α)
    (h : cs.lookup r = none) :
    countTermC (cs.insert r x) = countTermC cs + countTerm x := by
  induction cs using children_recList with
  | h2 => simp [Children.insert, countTermC]
  | h3 r0 c0 rest ih =>
    simp only [Children.lookup] at h
    by_cases h0 : r = r0
    · rw [if_pos h0] at h; simp at h
    · rw [if_neg h0] at h
      simp only [Children.insert, if_neg h0, countTermC, ih h]
      omega

theorem countTermC_erase (pre : List Char) (cs : Children α) (r : Char)
    (hwf : structWfC pre cs = true) :
    ∀ ch, cs.lookup r = some ch →
      countTermC (cs.erase r) + countTerm ch = countTermC cs := by
  induction cs using children_recList with
  | h2 => intro ch h; simp [Children.lookup] at h
  | h3 r0 c0 rest ih =>
    intro ch h
    simp only [structWfC, Bool.and_eq_true] at hwf
    obtain ⟨⟨⟨hrv, hnk⟩, hbr⟩, hrest⟩ := hwf
    simp only [Children.lookup] at h
    by_cases h0 : r = r0
    · rw [if_pos h0] at h
      obtain rfl : c0 = ch := by simpa using h
      subst h0
      rw [show (Children.cons r c0 rest).erase r = rest.erase r from by simp [Children.erase]]
      rw [erase_absent rest r (by simpa using hnk)]
      simp only [countTermC]
      omega
    · rw [if_neg h0] at h
      rw [show (Children.cons r0 c0 rest).erase r = .cons r0 c0 (rest.erase r) from by
        simp [Children.erase, h0]]
      simp only [countTermC]
      have := ih hrest ch h
      omega

theorem structWfC_erase (pre : List Char) (cs : Children α) (r : Char)
    (hwf : structWfC pre cs = true) : structWfC pre (cs.erase r) = true := by
  induction cs using children_recList with
  | h2 => simpa [Children.erase] using hwf
  | h3 r0 c0 rest ih =>
    simp only [structWfC, Bool.and_eq_true] at hwf
    obtain ⟨⟨⟨hrv, hnk⟩, hbr⟩, hrest⟩ := hwf
    by_cases h0 : r = r0
    · subst h0
      rw [show (Children.cons r c0 rest).erase r = rest.erase r from by simp [Children.erase]]
      exact ih hrest
    · rw [show (Children.cons r0 c0 rest).erase r = .cons r0 c0 (rest.erase r) from by
        simp [Children.erase, h0]]
      simp only [structWfC, Bool.and_eq_true]
      refine ⟨⟨⟨hrv, ?_⟩, hbr⟩, ih hrest⟩
      have hk : (rest.erase r).hasKey r0 = false :=
        hasKey_erase_false rest r r0 (by simpa using hnk)
      simpa using hk

theorem structWfC_insert (pre : List Char) (cs : Children α) (r : Char) (x : TrieNode α)
    (hwf : structWfC pre cs = true) (hrv : x.rval = r)
    (hbr : (if r = nulChar then x.term && x.children.isEmpty && (x.path = pre)
            else !x.term && structWf (pre ++ [r]) x) = true) :
    structWfC pre (cs.insert r x) = true := by
  induction cs using children_recList with
  | h2 =>
    simp only [Children.insert, structWfC, Bool.and_eq_true]
    refine ⟨⟨⟨by simp [hrv], by simp [Children.hasKey]⟩, hbr⟩, trivial⟩
  | h3 r0 c0 rest ih =>
    simp only [structWfC, Bool.and_eq_true] at hwf
    obtain ⟨⟨⟨hrv0, hnk⟩, hbr0⟩, hrest⟩ := hwf
    by_cases h0 : r = r0
    · subst h0
      rw [show (Children.cons r c0 rest).insert r x = .cons r x rest from by
        simp [Children.insert]]
      simp only [structWfC, Bool.and_eq_true]
      exact ⟨⟨⟨by simp [hrv], hnk⟩, hbr⟩, hrest⟩
    · rw [show (Children.cons r0 c0 rest).insert r x = .cons r0 c0 (rest.insert r x) from by
        simp [Children.insert, h0]]
      simp only [structWfC, Bool.and_eq_true]
      refine ⟨⟨⟨hrv0, ?_⟩, hbr0⟩, ih hrest⟩
      have hk : (rest.insert r x).hasKey r0 = false :=
        hasKey_insert_false rest r r0 x (fun hh => h0 hh.symm) (by simpa using hnk)
      simpa using hk

/-! ### The structural observers are blind to masks -/

theorem stripC_hasKey (cs : Children α) (q : Char) :
    (stripMasksC cs).hasKey q = cs.hasKey q := by
  induction cs using children_recList with
  | h2 => rfl
  | h3 r0 c0 rest ih => simp [stripMasksC, Children.hasKey, ih]

theorem structWf_strip_pair :
    (∀ (n : TrieNode α), ∀ pre, structWf pre (stripMasks n) = structWf pre n) ∧
    (∀ (cs : Children α), ∀ pre, structWfC pre (stripMasksC cs) = structWfC pre cs) := by
  refine
    ⟨@trieNode_induct α (fun n => ∀ pre, structWf pre (stripMasks n) = structWf pre n)
        (fun cs => ∀ pre, structWfC pre (stripMasksC cs) = structWfC pre cs) ?hn ?h2 ?h3,
      @children_induct α (fun n => ∀ pre, structWf pre (stripMasks n) = structWf pre n)
        (fun cs => ∀ pre, structWfC pre (stripMasksC cs) = structWfC pre cs) ?hn ?h2 ?h3⟩
  case hn => intro rv p t d v m tc cs ih pre; simp [stripMasks, structWf, ih]
  case h2 => intro pre; rfl
  case h3 =>
    intro r c rest ihc ihr pre
    simp [stripMasksC, structWfC, stripC_hasKey, ihc, ihr]

theorem countTerm_strip_pair :
    (∀ n : TrieNode α, countTerm (stripMasks n) = countTerm n) ∧
    (∀ cs : Children α, countTermC (stripMasksC cs) = countTermC cs) := by
  refine
    ⟨@trieNode_induct α (fun n => countTerm (stripMasks n) = countTerm n)
        (fun cs => countTermC (stripMasksC cs) = countTermC cs) ?hn ?h2 ?h3,
      @children_induct α (fun n => countTerm (stripMasks n) = countTerm n)
        (fun cs => countTermC (stripMasksC cs) = countTermC cs) ?hn ?h2 ?h3⟩
  case hn => intro rv p t d v m tc cs ih; simp [stripMasks, countTerm, ih]
  case h2 => rfl
  case h3 => intro r c rest ihc ihr; simp [stripMasksC, countTermC, ihc, ihr]

theorem keysOf_strip_pair :
    (∀ n : TrieNode α, keysOf (stripMasks n) = keysOf n) ∧
    (∀ cs : Children α, keysOfC (stripMasksC cs) = keysOfC cs) := by
  refine
    ⟨@trieNode_induct α (fun n => keysOf (stripMasks n) = keysOf n)
        (fun cs => keysOfC (stripMasksC cs) = keysOfC cs) ?hn ?h2 ?h3,
      @children_induct α (fun n => keysOf (stripMasks n) = keysOf n)
        (fun cs => keysOfC (stripMasksC cs) = keysOfC cs) ?hn ?h2 ?h3⟩
  case hn => intro rv p t d v m tc cs ih; simp [stripMasks, keysOf, ih]
  case h2 => rfl
  case h3 => intro r c rest ihc ihr; simp [stripMasksC, keysOfC, ihc, ihr]

theorem tcOk_strip_pair :
    (∀ n : TrieNode α, tcOk (stripMasks n) = tcOk n) ∧
    (∀ cs : Children α, tcOkC (stripMasksC cs) = tcOkC cs) := by
  refine
    ⟨@trieNode_induct α (fun n => tcOk (stripMasks n) = tcOk n)
        (fun cs => tcOkC (stripMasksC cs) = tcOkC cs) ?hn ?h2 ?h3,
      @children_induct α (fun n => tcOk (stripMasks n) = tcOk n)
        (fun cs => tcOkC (stripMasksC cs) = tcOkC cs) ?hn ?h2 ?h3⟩
  case hn =>
    intro rv p t d v m tc cs ih
    simp [stripMasks, tcOk, countTerm_strip_pair.2, ih]
  case h2 => rfl
  case h3 => intro r c rest ihc ihr; simp [stripMasksC, tcOkC, ihc, ihr]

theorem hasTerminal_strip (n : TrieNode α) (q : List Char) :
    hasTerminal (stripMasks n) q = hasTerminal n q := by
  unfold hasTerminal
  rw [strip_findNode]
  cases h : findNode n q with
  | none => rfl
  | some nd =>
    simp only [Option.map_some', strip_children, stripC_lookup]
    cases h2 : nd.children.lookup nulChar with
    | none => rfl
    | some tn => simp

theorem nodeFind_strip (n : TrieNode α) (q : List Char) :
    nodeFind (stripMasks n) q = nodeFind n q := by
  unfold nodeFind
  rw [strip_findNode]
  cases h : findNode n q with
  | none => rfl
  | some nd =>
    simp only [Option.map_some', strip_children, stripC_lookup]
    cases h2 : nd.children.lookup nulChar with
    | none => rfl
    | some tn => simp

/-! ### `removeSimple` preserves the structural invariants -/

theorem removeSimple_rval : ∀ (k : List Char) (n : TrieNode α),
    (removeSimple n k).rval = n.rval := by
  intro k
  induction k with
  | nil => intro n; simp [removeSimple, decTC]
  | cons c k' ih =>
    intro n
    simp only [removeSimple]
    cases hl : n.children.lookup c with
    | none => simp [decTC]
    | some ch =>
      dsimp only
      by_cases hemp : (removeSimple ch k').children.isEmpty = true
      · rw [if_pos hemp]; simp [decTC]
      · rw [if_neg hemp]; simp [decTC]

theorem removeSimple_term : ∀ (k : List Char) (n : TrieNode α),
    (removeSimple n k).term = n.term := by
  intro k
  induction k with
  | nil => intro n; simp [removeSimple, decTC]
  | cons c k' ih =>
    intro n
    simp only [removeSimple]
    cases hl : n.children.lookup c with
    | none => simp [decTC]
    | some ch =>
      dsimp only
      by_cases hemp : (removeSimple ch k').children.isEmpty = true
      · rw [if_pos hemp]; simp [decTC]
      · rw [if_neg hemp]; simp [decTC]

theorem removeSimple_path : ∀ (k : List Char) (n : TrieNode α),
    (removeSimple n k).path = n.path := by
  intro k
  induction k with
  | nil => intro n; simp [removeSimple, decTC]
  | cons c k' ih =>
    intro n
    simp only [removeSimple]
    cases hl : n.children.lookup c with
    | none => simp [decTC]
    | some ch =>
      dsimp only
      by_cases hemp : (removeSimple ch k').children.isEmpty = true
      · rw [if_pos hemp]; simp [decTC]
      · rw [if_neg hemp]; simp [decTC]

theorem removeSimple_children_nil (k : List Char) (n : TrieNode α)
    (h : n.children = .nil) : (removeSimple n k).children = .nil := by
  cases k with
  | nil => simp [removeSimple, decTC, h, Children.erase]
  | cons c k' =>
    rw [show removeSimple n (c :: k') = decTC n from by
      simp [removeSimple, h, Children.lookup]]
    simp [decTC, h]

theorem structWf_node (n : TrieNode α) (pre : List Char) :
    structWf pre n = structWfC pre n.children := by cases n <;> rfl

theorem structWf_removeSimple : ∀ (k pre : List Char) (n : TrieNode α),
    structWf pre n = true → structWf pre (removeSimple n k) = true := by
  intro k
  induction k with
  | nil =>
    intro pre n h
    rw [structWf_node] at h ⊢
    simp only [removeSimple, decTC, children_withTermCount, children_withChildren]
    exact structWfC_erase pre n.children nulChar h
  | cons c k' ih =>
    intro pre n h
    simp only [removeSimple]
    cases hl : n.children.lookup c with
    | none =>
      rw [structWf_node] at h ⊢
      simpa [decTC] using h
    | some ch =>
      dsimp only
      obtain ⟨hrv, hbr⟩ := lookup_structWf n.children pre c (by rwa [structWf_node] at h) ch hl
      by_cases hemp : (removeSimple ch k').children.isEmpty = true
      · rw [if_pos hemp]
        rw [structWf_node] at h ⊢
        simp only [decTC, children_withTermCount, children_withChildren]
        exact structWfC_erase pre n.children c h
      · rw [if_neg hemp]
        rw [structWf_node] at h ⊢
        simp only [decTC, children_withTermCount, children_withChildren]
        refine structWfC_insert pre n.children c (removeSimple ch k') h
          (by rw [removeSimple_rval, hrv]) ?_
        by_cases hnul : c = nulChar
        · exfalso
          rw [if_pos hnul] at hbr
          exact hemp (by rw [removeSimple_children_nil k' ch hbr.2.1]; rfl)
        · rw [if_neg hnul]
          rw [if_neg hnul] at hbr
          rw [removeSimple_term, hbr.1]
          simpa using ih (pre ++ [c]) ch hbr.2

theorem countTerm_node (n : TrieNode α) :
    countTerm n = (if n.term then 1 else 0) + countTermC n.children := by
  cases n <;> rfl

theorem tcOk_node (n : TrieNode α) :
    tcOk n = (decide (n.termCount = (countTermC n.children : Int)) && tcOkC n.children) := by
  cases n <;> rfl

theorem hasTerminal_leaf (n : TrieNode α) (k : List Char) (h : n.children = .nil) :
    hasTerminal n k = false := by
  cases k with
  | nil => exact hasTerminal_nil_none (by rw [h]; rfl)
  | cons c k' => exact hasTerminal_cons_none (by rw [h]; rfl) k'

/-- Removing a stored key with `removeSimple` keeps the `termCount`
invariant and lowers the number of terminals by exactly one. -/
theorem removeSimple_tc : ∀ (k pre : List Char) (n : TrieNode α),
    structWf pre n = true → tcOk n = true → hasTerminal n k = true →
    tcOk (removeSimple n k) = true ∧ countTerm (removeSimple n k) + 1 = countTerm n := by
  intro k
  induction k with
  | nil =>
    intro pre n hwf hok hter
    cases hlk : n.children.lookup nulChar with
    | none => rw [hasTerminal_nil_none hlk] at hter; exact absurd hter (by simp)
    | some tn =>
      have htn : tn.term = true := by rw [hasTerminal_nil_lookup hlk] at hter; exact hter
      obtain ⟨hrv, hbr⟩ :=
        lookup_structWf n.children pre nulChar (by rwa [structWf_node] at hwf) tn hlk
      rw [if_pos rfl] at hbr
      obtain ⟨-, hnil, -⟩ := hbr
      have hct : countTerm tn = 1 := by
        rw [countTerm_node, htn, hnil]
        simp [countTermC]
      rw [tcOk_node] at hok
      simp only [Bool.and_eq_true, decide_eq_true_eq] at hok
      obtain ⟨h1, h2⟩ := hok
      have hcnt := countTermC_erase pre n.children nulChar (by rwa [structWf_node] at hwf) tn hlk
      constructor
      · rw [show removeSimple n [] = decTC (n.withChildren (n.children.erase nulChar)) from rfl]
        rw [tcOk_node]
        simp only [decTC, termCount_withTermCount, termCount_withChildren,
          children_withTermCount, children_withChildren, Bool.and_eq_true, decide_eq_true_eq]
        refine ⟨?_, tcOkC_erase n.children nulChar h2⟩
        rw [h1]
        omega
      · rw [show removeSimple n [] = decTC (n.withChildren (n.children.erase nulChar)) from rfl]
        rw [countTerm_node, countTerm_node (n := n)]
        simp only [decTC, term_withTermCount, term_withChildren,
          children_withTermCount, children_withChildren]
        omega
  | cons c k' ih =>
    intro pre n hwf hok hter
    cases hl : n.children.lookup c with
    | none => rw [hasTerminal_cons_none hl] at hter; exact absurd hter (by simp)
    | some ch =>
      rw [hasTerminal_cons hl] at hter
      obtain ⟨hrv, hbr⟩ :=
        lookup_structWf n.children pre c (by rwa [structWf_node] at hwf) ch hl
      have hcnul : c ≠ nulChar := by
        intro hc
        rw [if_pos hc] at hbr
        rw [hasTerminal_leaf ch k' hbr.2.1] at hter
        exact absurd hter (by simp)
      rw [if_neg hcnul] at hbr
      rw [tcOk_node] at hok
      simp only [Bool.and_eq_true, decide_eq_true_eq] at hok
      obtain ⟨h1, h2⟩ := hok
      have hchok : tcOk ch = true := lookup_tcOkC n.children c h2 ch hl
      obtain ⟨ihok, ihcnt⟩ := ih (pre ++ [c]) ch hbr.2 hchok hter
      have hchterm : (removeSimple ch k').term = false := by
        rw [removeSimple_term]; exact hbr.1
      simp only [removeSimple, hl]
      by_cases hemp : (removeSimple ch k').children.isEmpty = true
      · rw [if_pos hemp]
        have hch0 : countTerm (removeSimple ch k') = 0 := by
          rw [countTerm_node, hchterm, isEmpty_eq_nil hemp]
          simp [countTermC]
        have hcnt := countTermC_erase pre n.children c (by rwa [structWf_node] at hwf) ch hl
        constructor
        · rw [tcOk_node]
          simp only [decTC, termCount_withTermCount, termCount_withChildren,
            children_withTermCount, children_withChildren, Bool.and_eq_true, decide_eq_true_eq]
          refine ⟨?_, tcOkC_erase n.children c h2⟩
          rw [h1]
          omega
        · rw [countTerm_node, countTerm_node (n := n)]
          simp only [decTC, term_withTermCount, term_withChildren,
            children_withTermCount, children_withChildren]
          omega
      · rw [if_neg hemp]
        have hcnt := countTermC_insert_mem n.children c (removeSimple ch k') ch hl
        constructor
        · rw [tcOk_node]
          simp only [decTC, termCount_withTermCount, termCount_withChildren,
            children_withTermCount, children_withChildren, Bool.and_eq_true, decide_eq_true_eq]
          refine ⟨?_, tcOkC_insert n.children c (removeSimple ch k') h2 ihok⟩
          rw [h1]
          omega
        · rw [countTerm_node, countTerm_node (n := n)]
          simp only [decTC, term_withTermCount, term_withChildren,
            children_withTermCount, children_withChildren]
          omega

/-! ### `Remove` does not disturb other keys (frame lemmas) -/

theorem nodeFind_cons {n ch : TrieNode α} {c : Char} (h : n.children.lookup c = some ch)
    (q : List Char) : nodeFind n (c :: q) = nodeFind ch q := by
  unfold nodeFind
  rw [findNode_cons h]

theorem nodeFind_cons_none {n : TrieNode α} {c : Char} (h : n.children.lookup c = none)
    (q : List Char) : nodeFind n (c :: q) = (none, false) := by
  unfold nodeFind
  rw [show findNode n (c :: q) = none from by simp [findNode, h]]

theorem nodeFind_leaf (n : TrieNode α) (q : List Char) (h : n.children = .nil) :
    nodeFind n q = (none, false) := by
  cases q with
  | nil => simp [nodeFind, findNode, h, Children.lookup]
  | cons c q' => exact nodeFind_cons_none (by rw [h]; rfl) q'

theorem nodeFind_nil_eq (n m : TrieNode α)
    (h : n.children.lookup nulChar = m.children.lookup nulChar) :
    nodeFind n [] = nodeFind m [] := by
  unfold nodeFind
  simp only [findNode]
  rw [h]

theorem nodeFind_decTC (n : TrieNode α) (q : List Char) :
    nodeFind (decTC n) q = nodeFind n q := by
  cases q with
  | nil =>
    apply nodeFind_nil_eq
    simp [decTC]
  | cons c q' =>
    cases hl : n.children.lookup c with
    | none =>
      rw [nodeFind_cons_none (show (decTC n).children.lookup c = none from by
        simpa [decTC] using hl) q', nodeFind_cons_none hl q']
    | some ch =>
      rw [nodeFind_cons (show (decTC n).children.lookup c = some ch from by
        simpa [decTC] using hl) q', nodeFind_cons hl q']

/-- The frame property of the clean structural removal: looking up any key
`q` other than the removed key `k` is unchanged, provided neither key
extends the other through the synthetic `nul` rune. -/
theorem removeSimple_frame : ∀ (k : List Char) (s : TrieNode α) (q : List Char),
    q ≠ k → ¬ List.IsPrefix (k ++ [nulChar]) q → ¬ List.IsPrefix (q ++ [nulChar]) k →
    nodeFind (removeSimple s k) q = nodeFind s q := by
  intro k
  induction k with
  | nil =>
    intro s q hne hkq hqk
    cases q with
    | nil => exact absurd rfl hne
    | cons c q' =>
      have hcnul : c ≠ nulChar := by
        intro hc
        exact hkq ⟨q', by simp [hc]⟩
      rw [show removeSimple s [] = decTC (s.withChildren (s.children.erase nulChar)) from rfl]
      have hl2 : ((decTC (s.withChildren (s.children.erase nulChar))).children).lookup c
          = s.children.lookup c := by
        simp only [decTC, children_withTermCount, children_withChildren]
        exact Children.lookup_erase_ne s.children hcnul
      cases hl : s.children.lookup c with
      | none => rw [nodeFind_cons_none (by rw [hl2, hl]) q', nodeFind_cons_none hl q']
      | some ch => rw [nodeFind_cons (show _ = some ch from by rw [hl2, hl]) q', nodeFind_cons hl q']
  | cons c k' ih =>
    intro s q hne hkq hqk
    simp only [removeSimple]
    cases hl : s.children.lookup c with
    | none => exact nodeFind_decTC s q
    | some ch =>
      dsimp only
      by_cases hemp : (removeSimple ch k').children.isEmpty = true
      · rw [if_pos hemp]
        cases q with
        | nil =>
          have hcnul : nulChar ≠ c := by
            intro hc
            exact hqk ⟨k', by simp [hc]⟩
          apply nodeFind_nil_eq
          simp only [decTC, children_withTermCount, children_withChildren]
          exact Children.lookup_erase_ne s.children hcnul
        | cons d q' =>
          by_cases hdc : d = c
          · subst hdc
            have hq'ne : q' ≠ k' := fun hh => hne (by rw [hh])
            have hkq' : ¬ List.IsPrefix (k' ++ [nulChar]) q' := by
              rintro ⟨t, ht⟩
              exact hkq ⟨t, by simp only [List.cons_append]; rw [ht]⟩
            have hqk' : ¬ List.IsPrefix (q' ++ [nulChar]) k' := by
              rintro ⟨t, ht⟩
              exact hqk ⟨t, by simp only [List.cons_append]; rw [ht]⟩
            rw [nodeFind_cons_none (show ((decTC (s.withChildren
                (s.children.erase d))).children).lookup d = none from by simp [decTC]) q']
            rw [nodeFind_cons hl q']
            rw [← ih ch q' hq'ne hkq' hqk']
            rw [nodeFind_leaf _ q' (isEmpty_eq_nil hemp)]
          · have hlu : ((decTC (s.withChildren (s.children.erase c))).children).lookup d
                = s.children.lookup d := by
              simp only [decTC, children_withTermCount, children_withChildren]
              exact Children.lookup_erase_ne s.children hdc
            cases hld : s.children.lookup d with
            | none => rw [nodeFind_cons_none (by rw [hlu, hld]) q', nodeFind_cons_none hld q']
            | some ch2 =>
              rw [nodeFind_cons (show _ = some ch2 from by rw [hlu, hld]) q',
                nodeFind_cons hld q']
      · rw [if_neg hemp]
        cases q with
        | nil =>
          have hcnul : nulChar ≠ c := by
            intro hc
            exact hqk ⟨k', by simp [hc]⟩
          apply nodeFind_nil_eq
          simp only [decTC, children_withTermCount, children_withChildren]
          exact Children.lookup_insert_ne s.children (removeSimple ch k') hcnul
        | cons d q' =>
          by_cases hdc : d = c
          · subst hdc
            have hq'ne : q' ≠ k' := fun hh => hne (by rw [hh])
            have hkq' : ¬ List.IsPrefix (k' ++ [nulChar]) q' := by
              rintro ⟨t, ht⟩
              exact hkq ⟨t, by simp only [List.cons_append]; rw [ht]⟩
            have hqk' : ¬ List.IsPrefix (q' ++ [nulChar]) k' := by
              rintro ⟨t, ht⟩
              exact hqk ⟨t, by simp only [List.cons_append]; rw [ht]⟩
            rw [nodeFind_cons (show ((decTC (s.withChildren (s.children.insert d
                (removeSimple ch k')))).children).lookup d = some (removeSimple ch k') from by
              simp [decTC]) q']
            rw [nodeFind_cons hl q']
            exact ih ch q' hq'ne hkq' hqk'
          · have hlu : ((decTC (s.withChildren (s.children.insert c
                (removeSimple ch k')))).children).lookup d = s.children.lookup d := by
              simp only [decTC, children_withTermCount, children_withChildren]
              exact Children.lookup_insert_ne s.children (removeSimple ch k') hdc
            cases hld : s.children.lookup d with
            | none => rw [nodeFind_cons_none (by rw [hlu, hld]) q', nodeFind_cons_none hld q']
            | some ch2 =>
              rw [nodeFind_cons (show _ = some ch2 from by rw [hlu, hld]) q',
                nodeFind_cons hld q']

/-! ### `Remove` preserves the reachability-mask over-approximation -/

theorem maskOk_node (n : TrieNode α) :
    maskOk n = (bitsub (maskbit n.rval) n.mask && maskOkC n.mask n.children) := by
  cases n <;> rfl

theorem maskOkC_allMaskOk (cs : Children α) :
    ∀ pm, maskOkC pm cs = true → allMaskOk cs = true := by
  induction cs using children_recList with
  | h2 => intro pm _; rfl
  | h3 r0 c0 rest ih =>
    intro pm h
    simp only [maskOkC, Bool.and_eq_true] at h
    simp only [allMaskOk, Bool.and_eq_true]
    exact ⟨h.1.2, ih pm h.2⟩

theorem allMaskOk_lookup (cs : Children α) (r : Char) :
    allMaskOk cs = true → ∀ c, cs.lookup r = some c → maskOk c = true := by
  induction cs using children_recList with
  | h2 => intro _ c h; simp [Children.lookup] at h
  | h3 r0 c0 rest ih =>
    intro hall c h
    simp only [allMaskOk, Bool.and_eq_true] at hall
    simp only [Children.lookup] at h
    by_cases h0 : r = r0
    · rw [if_pos h0] at h
      obtain rfl : c0 = c := by simpa using h
      exact hall.1
    · rw [if_neg h0] at h
      exact ih hall.2 c h

theorem allMaskOk_insert (cs : Children α) (r : Char) (x : TrieNode α)
    (hcs : allMaskOk cs = true) (hx : maskOk x = true) :
    allMaskOk (cs.insert r x) = true := by
  induction cs using children_recList with
  | h2 => simp [Children.insert, allMaskOk, hx]
  | h3 r0 c0 rest ih =>
    simp only [allMaskOk, Bool.and_eq_true] at hcs
    by_cases h0 : r = r0
    · subst h0
      simp only [Children.insert, if_pos rfl, allMaskOk, Bool.and_eq_true]
      exact ⟨hx, hcs.2⟩
    · simp only [Children.insert, if_neg h0, allMaskOk, Bool.and_eq_true]
      exact ⟨hcs.1, ih hcs.2⟩

theorem maskOkC_self (cs : Children α) :
    allMaskOk cs = true → ∀ x, maskOkC (x ||| Children.orMasks cs) cs = true := by
  induction cs using children_recList with
  | h2 => intro _ x; rfl
  | h3 r0 c0 rest ih =>
    intro hall x
    simp only [allMaskOk, Bool.and_eq_true] at hall
    simp only [Children.orMasks, maskOkC, Bool.and_eq_true]
    refine ⟨⟨?_, hall.1⟩, ?_⟩
    · exact bitsub_trans (bitsub_or_left c0.mask (Children.orMasks rest))
        (bitsub_or_right x (c0.mask ||| Children.orMasks rest))
    · have := ih hall.2 (x ||| c0.mask)
      rwa [Nat.or_assoc] at this

theorem maskOk_recompute (n : TrieNode α)
    (h : allMaskOk n.children = true) : maskOk (recomputeMask n) = true := by
  rw [maskOk_node]
  simp only [recomputeMask, mask_withMask, rval_withMask, children_withMask,
    Bool.and_eq_true]
  exact ⟨bitsub_or_left _ _, maskOkC_self n.children h _⟩

theorem maskOk_children (n : TrieNode α) (h : maskOk n = true) :
    allMaskOk n.children = true := by
  rw [maskOk_node] at h
  simp only [Bool.and_eq_true] at h
  exact maskOkC_allMaskOk n.children n.mask h.2

theorem updMaskAlong_maskOk (p : List Char) :
    ∀ t : TrieNode α, maskOk t = true → maskOk (updMaskAlong t p) = true := by
  induction p with
  | nil => intro t h; exact maskOk_recompute t (maskOk_children t h)
  | cons c rest ih =>
    intro t h
    simp only [updMaskAlong]
    cases hl : t.children.lookup c with
    | none => exact maskOk_recompute t (maskOk_children t h)
    | some ch =>
      dsimp only
      apply maskOk_recompute
      simp only [children_withChildren]
      exact allMaskOk_insert t.children c (updMaskAlong ch rest)
        (maskOk_children t h)
        (ih ch (allMaskOk_lookup t.children c (maskOk_children t h) ch hl))

theorem maskOkC_insert_samemask (cs : Children α) (pm : Nat) (r : Char) (x : TrieNode α)
    (hwf : maskOkC pm cs = true) :
    ∀ ch, cs.lookup r = some ch → maskOk x = true → x.mask = ch.mask →
      maskOkC pm (cs.insert r x) = true := by
  induction cs using children_recList with
  | h2 => intro ch h; simp [Children.lookup] at h
  | h3 r0 c0 rest ih =>
    intro ch h hx hmx
    simp only [maskOkC, Bool.and_eq_true] at hwf
    obtain ⟨⟨hsub, hok⟩, hrest⟩ := hwf
    simp only [Children.lookup] at h
    by_cases h0 : r = r0
    · rw [if_pos h0] at h
      obtain rfl : c0 = ch := by simpa using h
      subst h0
      rw [show (Children.cons r c0 rest).insert r x = .cons r x rest from by
        simp [Children.insert]]
      simp only [maskOkC, Bool.and_eq_true]
      exact ⟨⟨by rw [hmx]; exact hsub, hx⟩, hrest⟩
    · rw [if_neg h0] at h
      rw [show (Children.cons r0 c0 rest).insert r x = .cons r0 c0 (rest.insert r x) from by
        simp [Children.insert, h0]]
      simp only [maskOkC, Bool.and_eq_true]
      exact ⟨⟨hsub, hok⟩, ih hrest ch h hx hmx⟩

theorem maskOkC_erase (cs : Children α) (pm : Nat) (r : Char)
    (hwf : maskOkC pm cs = true) : maskOkC pm (cs.erase r) = true := by
  induction cs using children_recList with
  | h2 => simpa [Children.erase] using hwf
  | h3 r0 c0 rest ih =>
    simp only [maskOkC, Bool.and_eq_true] at hwf
    obtain ⟨⟨hsub, hok⟩, hrest⟩ := hwf
    by_cases h0 : r = r0
    · subst h0
      simpa [Children.erase] using ih hrest
    · rw [show (Children.cons r0 c0 rest).erase r = .cons r0 c0 (rest.erase r) from by
        simp [Children.erase, h0]]
      simp only [maskOkC, Bool.and_eq_true]
      exact ⟨⟨hsub, hok⟩, ih hrest⟩

theorem modifyAt_mask (f : TrieNode α → TrieNode α)
    (hm : ∀ n : TrieNode α, (f n).mask = n.mask) :
    ∀ (p : List Char) (t : TrieNode α), (modifyAt t p f).mask = t.mask := by
  intro p
  induction p with
  | nil => intro t; exact hm t
  | cons c rest ih =>
    intro t
    simp only [modifyAt]
    cases hl : t.children.lookup c with
    | none => rfl
    | some ch => simp

theorem modifyAt_maskOk (f : TrieNode α → TrieNode α)
    (hf : ∀ n : TrieNode α, maskOk n = true → maskOk (f n) = true)
    (hm : ∀ n : TrieNode α, (f n).mask = n.mask) :
    ∀ (p : List Char) (t : TrieNode α), maskOk t = true → maskOk (modifyAt t p f) = true := by
  intro p
  induction p with
  | nil => intro t h; exact hf t h
  | cons c rest ih =>
    intro t h
    simp only [modifyAt]
    cases hl : t.children.lookup c with
    | none => exact h
    | some ch =>
      dsimp only
      rw [maskOk_node] at h ⊢
      simp only [Bool.and_eq_true, mask_withChildren, rval_withChildren,
        children_withChildren] at h ⊢
      refine ⟨h.1, ?_⟩
      have hchok : maskOk ch = true :=
        allMaskOk_lookup t.children c (maskOkC_allMaskOk t.children t.mask h.2) ch hl
      exact maskOkC_insert_samemask t.children t.mask c (modifyAt ch rest f) h.2 ch hl
        (ih ch hchok) (modifyAt_mask f hm rest ch)

theorem decTC_maskOk (n : TrieNode α) : maskOk (decTC n) = maskOk n := by
  cases n <;> rfl

theorem eraseNul_maskOk (r : Char) (n : TrieNode α) (h : maskOk n = true) :
    maskOk (n.withChildren (n.children.erase r)) = true := by
  rw [maskOk_node] at h ⊢
  simp only [Bool.and_eq_true, mask_withChildren, rval_withChildren,
    children_withChildren] at h ⊢
  exact ⟨h.1, maskOkC_erase n.children n.mask r h.2⟩

theorem removeLoop_maskOk (key : List Char) :
    ∀ (d : Nat) (t : TrieNode α), maskOk t = true → maskOk (removeLoop key d t) = true := by
  intro d
  induction d with
  | zero => intro t h; exact h
  | succ e ih =>
    intro t h
    rw [removeLoop]
    apply ih
    have h1 : maskOk (modifyAt t (key.take (e + 1)) decTC) = true :=
      modifyAt_maskOk decTC (fun n hn => by rwa [decTC_maskOk]) (fun n => by simp [decTC])
        (key.take (e + 1)) t h
    cases hf : findNode (modifyAt t (key.take (e + 1)) decTC) (key.take (e + 1)) with
    | none => exact h1
    | some nd =>
      dsimp only
      by_cases hemp : nd.children.isEmpty = true
      · rw [if_pos hemp]
        have h2 : maskOk (match key.drop e with
            | [] => modifyAt t (key.take (e + 1)) decTC
            | r :: _ => modifyAt (modifyAt t (key.take (e + 1)) decTC) (key.take e)
                (fun p => p.withChildren (p.children.erase r))) = true := by
          cases hd : key.drop e with
          | nil => exact h1
          | cons r rest2 =>
            exact modifyAt_maskOk (fun p => p.withChildren (p.children.erase r))
              (fun n hn => eraseNul_maskOk r n hn) (fun n => by simp)
              (key.take e) _ h1
        cases e with
        | zero => exact h2
        | succ e2 => exact updMaskAlong_maskOk (key.take e2) _ h2
      · rw [if_neg hemp]
        exact h1

/-- The amended mask claim: `Remove` preserves the hereditary safe
over-approximation invariant (own bit and every child's mask contained in
the node's mask) even though the stopping ancestor's own mask is not
recomputed from scratch. -/
theorem Remove_maskOk (t : Trie α) (key : List Char) (h : maskOk t.root = true) :
    maskOk ((Remove t key).2).root = true := by
  cases hf : findNode t.root key with
  | none => simpa [Remove, hf] using h
  | some node =>
    cases hlk : node.children.lookup nulChar with
    | none => simpa [Remove, hf, hlk] using h
    | some target =>
      by_cases ht : target.term = true
      · simp only [Remove, hf, hlk, ht, if_true]
        apply updMaskAlong_maskOk
        apply modifyAt_maskOk decTC (fun n hn => by rwa [decTC_maskOk])
          (fun n => by simp [decTC]) []
        apply removeLoop_maskOk
        have h1 : maskOk (modifyAt t.root key
            (fun n => n.withChildren (n.children.erase nulChar))) = true :=
          modifyAt_maskOk (fun n => n.withChildren (n.children.erase nulChar))
            (fun n hn => eraseNul_maskOk nulChar n hn) (fun n => by simp) key t.root h
        cases key with
        | nil => exact h1
        | cons a b => exact updMaskAlong_maskOk _ _ h1
      · have ht' : target.term = false := by simpa using ht
        simpa [Remove, hf, hlk, ht'] using h

/-! ### `Add` preserves the structural and `termCount` invariants -/

theorem hasTerminal_children_eq (n m : TrieNode α) (h : n.children = m.children) :
    ∀ q, hasTerminal n q = hasTerminal m q := by
  intro q
  cases q with
  | nil =>
    cases hlk : m.children.lookup nulChar with
    | none => rw [hasTerminal_nil_none (by rw [h, hlk]), hasTerminal_nil_none hlk]
    | some tn =>
      rw [hasTerminal_nil_lookup (show n.children.lookup nulChar = some tn from by
        rw [h, hlk]), hasTerminal_nil_lookup hlk]
  | cons c q' =>
    cases hlk : m.children.lookup c with
    | none => rw [hasTerminal_cons_none (by rw [h, hlk]) q', hasTerminal_cons_none hlk q']
    | some ch =>
      rw [hasTerminal_cons (show n.children.lookup c = some ch from by rw [h, hlk]) q',
        hasTerminal_cons hlk q']

theorem addWalk_rval (v : α) (cnt : Int) (key rem : List Char) (node : TrieNode α) :
    (addWalk v cnt key rem node).rval = node.rval := by
  cases rem with
  | nil => simp [addWalk]
  | cons r rest =>
    simp only [addWalk]
    cases hl : node.children.lookup r with
    | some child => simp
    | none => simp

theorem addWalk_term (v : α) (cnt : Int) (key rem : List Char) (node : TrieNode α) :
    (addWalk v cnt key rem node).term = node.term := by
  cases rem with
  | nil => simp [addWalk]
  | cons r rest =>
    simp only [addWalk]
    cases hl : node.children.lookup r with
    | some child => simp
    | none => simp

theorem addWalk_termCount (v : α) (cnt : Int) (key rem : List Char) (node : TrieNode α) :
    (addWalk v cnt key rem node).termCount = node.termCount := by
  cases rem with
  | nil => simp [addWalk]
  | cons r rest =>
    simp only [addWalk]
    cases hl : node.children.lookup r with
    | some child => simp
    | none => simp

theorem addWalk_structWf (v : α) (cnt : Int) (key : List Char) :
    ∀ (rem pre : List Char) (node : TrieNode α),
      key = pre ++ rem → rem.all (fun c => !(c = nulChar)) = true →
      structWf pre node = true → structWf pre (addWalk v cnt key rem node) = true := by
  intro rem
  induction rem with
  | nil =>
    intro pre node hkey hnul hwf
    rw [structWf_node] at hwf ⊢
    simp only [addWalk, children_withChildren]
    apply structWfC_insert pre node.children nulChar
      (TrieNode.mk nulChar key true (node.depth + 1) (some v) 0 0 Children.nil) hwf rfl
    rw [if_pos rfl]
    simp only [List.append_nil] at hkey
    simp [hkey, Children.isEmpty]
  | cons r rest ih =>
    intro pre node hkey hnul hwf
    simp only [List.all_cons, Bool.and_eq_true] at hnul
    have hrnul : r ≠ nulChar := by simpa using hnul.1
    have hkey2 : key = (pre ++ [r]) ++ rest := by rw [hkey]; simp
    simp only [addWalk]
    cases hl : node.children.lookup r with
    | some child =>
      dsimp only
      obtain ⟨hrv, hbr⟩ :=
        lookup_structWf node.children pre r (by rwa [structWf_node] at hwf) child hl
      rw [structWf_node] at hwf ⊢
      simp only [children_withChildren]
      apply structWfC_insert pre node.children r _ hwf
      · rw [addWalk_rval]
        simp [hrv]
      · rw [if_neg hrnul]
        rw [addWalk_term]
        simp only [term_withTermCount, term_withMask]
        by_cases hnulr : r = nulChar
        · exact absurd hnulr hrnul
        · rw [if_neg hnulr] at hbr
          rw [hbr.1]
          simp only [Bool.not_false, Bool.true_and]
          apply ih (pre ++ [r]) _ hkey2 hnul.2
          rw [structWf_node]
          simp only [children_withTermCount, children_withMask]
          rw [← structWf_node]
          exact hbr.2
    | none =>
      dsimp only
      rw [structWf_node] at hwf ⊢
      simp only [children_withChildren, children_withMask]
      apply structWfC_insert pre node.children r _ hwf
      · rw [addWalk_rval]
        rfl
      · rw [if_neg hrnul]
        rw [addWalk_term]
        simp only [term_mk, Bool.not_false, Bool.true_and]
        apply ih (pre ++ [r]) _ hkey2 hnul.2
        rw [structWf_node]
        rfl

theorem addWalk_countTerm (v : α) (cnt : Int) (key : List Char) :
    ∀ (rem pre : List Char) (node : TrieNode α), structWf pre node = true →
      countTerm (addWalk v cnt key rem node)
        = countTerm node + (if hasTerminal node rem then 0 else 1) := by
  intro rem
  induction rem with
  | nil =>
    intro pre node hwf
    simp only [addWalk]
    rw [countTerm_node, countTerm_node (n := node)]
    simp only [term_withChildren, children_withChildren]
    have hleaf : countTerm (TrieNode.mk nulChar key true (node.depth + 1) (some v) 0 0
        (Children.nil : Children α)) = 1 := by
      rw [countTerm_node]
      simp [countTermC]
    cases hlk : node.children.lookup nulChar with
    | none =>
      rw [countTermC_insert_new node.children nulChar _ hlk]
      rw [hasTerminal_nil_none hlk]
      simp only [Bool.false_eq_true, if_false]
      omega
    | some tn =>
      obtain ⟨hrv, hbr⟩ :=
        lookup_structWf node.children pre nulChar (by rwa [structWf_node] at hwf) tn hlk
      rw [if_pos rfl] at hbr
      have hct : countTerm tn = 1 := by
        rw [countTerm_node, hbr.1, hbr.2.1]
        simp [countTermC]
      have hins := countTermC_insert_mem node.children nulChar
        (TrieNode.mk nulChar key true (node.depth + 1) (some v) 0 0 Children.nil) tn hlk
      rw [hasTerminal_nil_lookup hlk, hbr.1]
      simp only [if_true]
      omega
  | cons r rest ih =>
    intro pre node hwf
    simp only [addWalk]
    cases hl : node.children.lookup r with
    | some child =>
      dsimp only
      simp only [termCount_withMask]
      obtain ⟨hrv, hbr⟩ :=
        lookup_structWf node.children pre r (by rwa [structWf_node] at hwf) child hl
      set child1 := (child.withMask (child.mask ||| maskruneslice (r :: rest))).withTermCount
        (child.termCount + cnt) with hchild1
      have hwfc : structWf (pre ++ [r]) child1 = true := by
        rw [structWf_node, hchild1]
        simp only [children_withTermCount, children_withMask]
        by_cases hnul : r = nulChar
        · rw [if_pos hnul] at hbr
          rw [hbr.2.1]
          rfl
        · rw [if_neg hnul] at hbr
          rw [← structWf_node]
          exact hbr.2
      have hht : hasTerminal child1 rest = hasTerminal child rest :=
        hasTerminal_children_eq child1 child (by rw [hchild1]; simp) rest
      have hch := ih (pre ++ [r]) child1 hwfc
      rw [hht] at hch
      have htweak : countTerm child1 = countTerm child := by
        rw [countTerm_node, countTerm_node (n := child), hchild1]
        simp
      have hins := countTermC_insert_mem node.children r
        (addWalk v cnt key rest child1) child hl
      rw [countTerm_node, countTerm_node (n := node)]
      simp only [term_withChildren, children_withChildren]
      rw [hasTerminal_cons hl rest]
      by_cases hterm : hasTerminal child rest = true
      · rw [hterm] at hch ⊢
        simp only [if_true] at hch ⊢
        omega
      · have hterm' : hasTerminal child rest = false := by simpa using hterm
        rw [hterm'] at hch ⊢
        simp only [Bool.false_eq_true, if_false] at hch ⊢
        omega
    | none =>
      dsimp only
      rw [countTerm_node, countTerm_node (n := node)]
      simp only [term_withChildren, children_withChildren, term_withMask, children_withMask]
      have hfr_wf : structWf (pre ++ [r]) (TrieNode.mk r ([] : List Char) false
          (node.depth + 1) (none : Option α) (maskruneslice (r :: rest)) cnt Children.nil) = true := by
        rw [structWf_node]
        rfl
      have hch := ih (pre ++ [r]) _ hfr_wf
      rw [hasTerminal_leaf _ rest (by simp)] at hch
      simp only [Bool.false_eq_true, if_false] at hch
      have hfr_ct : countTerm (TrieNode.mk r ([] : List Char) false
          (node.depth + 1) (none : Option α) (maskruneslice (r :: rest)) cnt Children.nil) = 0 := by
        rw [countTerm_node]
        simp [countTermC]
      have hins := countTermC_insert_new node.children r
        (addWalk v cnt key rest (TrieNode.mk r ([] : List Char) false
          (node.depth + 1) (none : Option α) (maskruneslice (r :: rest)) cnt Children.nil)) hl
      rw [hasTerminal_cons_none hl rest]
      simp only [Bool.false_eq_true, if_false]
      omega

theorem addWalk_tcOk (v : α) (cnt : Int) (key : List Char) :
    ∀ (rem pre : List Char) (node : TrieNode α), structWf pre node = true →
      tcOkC node.children = true →
      node.termCount = (countTermC node.children : Int)
        + (if hasTerminal node rem then 0 else 1) →
      cnt = (if hasTerminal node rem then 0 else 1) →
      tcOk (addWalk v cnt key rem node) = true := by
  intro rem
  induction rem with
  | nil =>
    intro pre node hwf hokc htc hcnt
    simp only [addWalk]
    rw [tcOk_node]
    simp only [termCount_withChildren, children_withChildren, Bool.and_eq_true,
      decide_eq_true_eq]
    have hleafok : tcOk (TrieNode.mk nulChar key true (node.depth + 1) (some v) 0 0
        (Children.nil : Children α)) = true := by
      rw [tcOk_node]
      simp [countTermC, tcOkC]
    have hleaf : countTerm (TrieNode.mk nulChar key true (node.depth + 1) (some v) 0 0
        (Children.nil : Children α)) = 1 := by
      rw [countTerm_node]
      simp [countTermC]
    refine ⟨?_, tcOkC_insert node.children nulChar _ hokc hleafok⟩
    cases hlk : node.children.lookup nulChar with
    | none =>
      rw [countTermC_insert_new node.children nulChar _ hlk]
      rw [hasTerminal_nil_none hlk] at htc
      simp only [Bool.false_eq_true, if_false] at htc
      push_cast
      omega
    | some tn =>
      obtain ⟨-, hbr⟩ :=
        lookup_structWf node.children pre nulChar (by rwa [structWf_node] at hwf) tn hlk
      rw [if_pos rfl] at hbr
      have hct : countTerm tn = 1 := by
        rw [countTerm_node, hbr.1, hbr.2.1]
        simp [countTermC]
      have hins := countTermC_insert_mem node.children nulChar
        (TrieNode.mk nulChar key true (node.depth + 1) (some v) 0 0 Children.nil) tn hlk
      rw [hasTerminal_nil_lookup hlk, hbr.1] at htc
      simp only [if_true] at htc
      push_cast
      omega
  | cons r rest ih =>
    intro pre node hwf hokc htc hcnt
    simp only [addWalk]
    cases hl : node.children.lookup r with
    | some child =>
      dsimp only
      simp only [termCount_withMask]
      obtain ⟨hrv, hbr⟩ :=
        lookup_structWf node.children pre r (by rwa [structWf_node] at hwf) child hl
      have hchok : tcOk child = true := lookup_tcOkC node.children r hokc child hl
      rw [tcOk_node] at hchok
      simp only [Bool.and_eq_true, decide_eq_true_eq] at hchok
      obtain ⟨hc1, hc2⟩ := hchok
      set child1 := (child.withMask (child.mask ||| maskruneslice (r :: rest))).withTermCount
        (child.termCount + cnt) with hchild1
      have hwfc : structWf (pre ++ [r]) child1 = true := by
        rw [structWf_node, hchild1]
        simp only [children_withTermCount, children_withMask]
        by_cases hnul : r = nulChar
        · rw [if_pos hnul] at hbr
          rw [hbr.2.1]
          rfl
        · rw [if_neg hnul] at hbr
          rw [← structWf_node]
          exact hbr.2
      have hht : hasTerminal child1 rest = hasTerminal child rest :=
        hasTerminal_children_eq child1 child (by rw [hchild1]; simp) rest
      have hokc1 : tcOkC child1.children = true := by
        rw [hchild1]
        simpa using hc2
      have e1 : child1.termCount = child.termCount + cnt := by
        rw [hchild1]
        simp
      have e2 : child1.children = child.children := by
        rw [hchild1]
        simp
      have htc1 : child1.termCount = (countTermC child1.children : Int)
          + (if hasTerminal child1 rest then 0 else 1) := by
        rw [e1, e2, hc1, hht, hcnt, hasTerminal_cons hl rest]
      have hcnt1 : cnt = (if hasTerminal child1 rest then 0 else 1) := by
        rw [hht, ← hasTerminal_cons hl rest]
        exact hcnt
      have hres := ih (pre ++ [r]) child1 hwfc hokc1 htc1 hcnt1
      rw [tcOk_node]
      simp only [termCount_withChildren, children_withChildren, Bool.and_eq_true,
        decide_eq_true_eq]
      refine ⟨?_, tcOkC_insert node.children r _ hokc hres⟩
      have hins := countTermC_insert_mem node.children r
        (addWalk v cnt key rest child1) child hl
      have hcnt_ct := addWalk_countTerm v cnt key rest (pre ++ [r]) child1 hwfc
      rw [hht] at hcnt_ct
      have htweak : countTerm child1 = countTerm child := by
        rw [countTerm_node, countTerm_node (n := child), hchild1]
        simp
      rw [htc, hasTerminal_cons hl rest]
      by_cases hterm : hasTerminal child rest = true
      · rw [hterm] at hcnt_ct ⊢
        simp only [if_true] at hcnt_ct ⊢
        push_cast
        omega
      · have hterm' : hasTerminal child rest = false := by simpa using hterm
        rw [hterm'] at hcnt_ct ⊢
        simp only [Bool.false_eq_true, if_false] at hcnt_ct ⊢
        push_cast
        omega
    | none =>
      dsimp only
      have hht0 : hasTerminal node (r :: rest) = false := hasTerminal_cons_none hl rest
      rw [hht0] at htc hcnt
      simp only [Bool.false_eq_true, if_false] at htc hcnt
      have hfr_wf : structWf (pre ++ [r]) (TrieNode.mk r ([] : List Char) false
          (node.depth + 1) (none : Option α) (maskruneslice (r :: rest)) cnt Children.nil) = true := by
        rw [structWf_node]
        rfl
      have hfr_ht : hasTerminal (TrieNode.mk r ([] : List Char) false
          (node.depth + 1) (none : Option α) (maskruneslice (r :: rest)) cnt Children.nil) rest = false :=
        hasTerminal_leaf _ rest (by simp)
      have hres := ih (pre ++ [r])
        (TrieNode.mk r ([] : List Char) false (node.depth + 1) none
          (maskruneslice (r :: rest)) cnt Children.nil) hfr_wf rfl
        (by rw [hfr_ht]; simpa [countTermC] using hcnt) (by rw [hfr_ht]; simpa using hcnt)
      have hcnt_ct := addWalk_countTerm v cnt key rest (pre ++ [r]) _ hfr_wf
      rw [hfr_ht] at hcnt_ct
      simp only [Bool.false_eq_true, if_false] at hcnt_ct
      have hfr_ct : countTerm (TrieNode.mk r ([] : List Char) false
          (node.depth + 1) (none : Option α) (maskruneslice (r :: rest)) cnt Children.nil) = 0 := by
        rw [countTerm_node]
        simp [countTermC]
      have hins := countTermC_insert_new node.children r
        (addWalk v cnt key rest (TrieNode.mk r ([] : List Char) false
          (node.depth + 1) (none : Option α) (maskruneslice (r :: rest)) cnt Children.nil)) hl
      rw [tcOk_node]
      simp only [termCount_withChildren, children_withChildren, termCount_withMask,
        children_withMask, Bool.and_eq_true, decide_eq_true_eq]
      refine ⟨?_, tcOkC_insert node.children r _ hokc hres⟩
      push_cast
      omega

theorem Add_structWf (t : Trie α) (key : List Char) (v : α)
    (hnul : key.all (fun c => !(c = nulChar)) = true)
    (hwf : structWf [] t.root = true) : structWf [] (Add t key v).root = true := by
  simp only [Add]
  apply addWalk_structWf v _ key key [] _ rfl hnul
  rw [structWf_node]
  simp only [children_withTermCount, children_withMask]
  rwa [structWf_node] at hwf

theorem Add_tcOk (t : Trie α) (key : List Char) (v : α)
    (hwf : structWf [] t.root = true) (hok : tcOk t.root = true) :
    tcOk (Add t key v).root = true := by
  simp only [Add]
  rw [tcOk_node] at hok
  simp only [Bool.and_eq_true, decide_eq_true_eq] at hok
  apply addWalk_tcOk v _ key key [] _ ?_ ?_ ?_ ?_
  · rw [structWf_node]
    simp only [children_withTermCount, children_withMask]
    rwa [structWf_node] at hwf
  · simp only [children_withTermCount, children_withMask]
    exact hok.2
  · simp only [termCount_withTermCount, termCount_withMask, children_withTermCount,
      children_withMask]
    rw [hasTerminal_children_eq
      ((t.root.withMask (t.root.mask ||| maskruneslice key)).withTermCount
        (t.root.termCount + if hasTerminal t.root key = true then 0 else 1))
      t.root (by simp) key]
    rw [hok.1]
  · rw [hasTerminal_children_eq
      ((t.root.withMask (t.root.mask ||| maskruneslice key)).withTermCount
        ((t.root.withMask (t.root.mask ||| maskruneslice key)).termCount
          + if hasTerminal t.root key = true then 0 else 1))
      t.root (by simp) key]

/-! ### The public operations and the invariants -/

theorem Find_nodeFind (t : Trie α) (k : List Char) : Find t k = nodeFind t.root k := rfl

theorem nodeFind_hasTerminal (n : TrieNode α) (q : List Char)
    (h : (nodeFind n q).2 = true) : hasTerminal n q = true := by
  cases hf : findNode n q with
  | none =>
    rw [show nodeFind n q = (none, false) from by simp [nodeFind, hf]] at h
    simp at h
  | some nd =>
    cases hlk : nd.children.lookup nulChar with
    | none =>
      rw [show nodeFind n q = (none, false) from by simp [nodeFind, hf, hlk]] at h
      simp at h
    | some tn =>
      rw [show hasTerminal n q = tn.term from by simp [hasTerminal, hf, hlk]]
      by_cases ht : tn.term = true
      · exact ht
      · rw [show nodeFind n q = (none, false) from by simp [nodeFind, hf, hlk, ht]] at h
        simp at h

/-- `Remove` preserves structural well-formedness and the (amended)
`termCount` invariant, whether or not the key was stored. -/
theorem Remove_presJ (t : Trie α) (key : List Char)
    (hwf : structWf [] t.root = true) (hok : tcOk t.root = true) :
    structWf [] ((Remove t key).2).root = true ∧ tcOk ((Remove t key).2).root = true := by
  cases hht : hasTerminal t.root key with
  | false => rw [Remove_nofire t key hht]; exact ⟨hwf, hok⟩
  | true =>
    obtain ⟨node, target, h1, h2, h3⟩ := hasTerminal_inv hht
    obtain ⟨-, -, hstrip⟩ := Remove_fire t key node target h1 h2 h3
    have hwfS : structWf [] (stripMasks t.root) = true := by
      rw [structWf_strip_pair.1]; exact hwf
    have hokS : tcOk (stripMasks t.root) = true := by
      rw [tcOk_strip_pair.1]; exact hok
    have hhtS : hasTerminal (stripMasks t.root) key = true := by
      rw [hasTerminal_strip]; exact hht
    constructor
    · rw [← structWf_strip_pair.1, hstrip]
      exact structWf_removeSimple key [] (stripMasks t.root) hwfS
    · rw [← tcOk_strip_pair.1, hstrip]
      exact (removeSimple_tc key [] (stripMasks t.root) hwfS hokS hhtS).1

/-! ### Claim theorems -/

/-- C6 (corrected): after every sequence of public mutating operations
(`Add`, `Remove`, `Clear`) whose keys avoid the sentinel rune U+0000,
every node's `termCount` equals the number of terminal nodes *strictly
below* it — the node itself excluded, so in particular every synthetic
terminal child carries `termCount` 0, not 1 as the spec claims. -/
theorem claim_C6_termcount_invariant (ops : List (Op α)) (h : opsNulFree ops = true) :
    tcOk (applyOps ops).root = true := by
  suffices H : ∀ (l : List (Op α)) (t : Trie α), opsNulFree l = true →
      structWf [] t.root = true → tcOk t.root = true →
      structWf [] (l.foldl applyOp t).root = true ∧ tcOk (l.foldl applyOp t).root = true by
    exact (H ops (New α) h rfl rfl).2
  intro l
  induction l with
  | nil => intro t _ hwf hok; exact ⟨hwf, hok⟩
  | cons op rest ih =>
    intro t hnul hwf hok
    simp only [opsNulFree, List.all_cons, Bool.and_eq_true] at hnul
    rw [List.foldl_cons]
    have hres : structWf [] (applyOp t op).root = true ∧ tcOk (applyOp t op).root = true := by
      cases op with
      | add k v =>
        have hknul : k.all (fun c => !(c = nulChar)) = true := by simpa using hnul.1
        exact ⟨Add_structWf t k v hknul hwf, Add_tcOk t k v hwf hok⟩
      | remove k => exact Remove_presJ t k hwf hok
      | clear => exact ⟨rfl, rfl⟩
    exact ih (applyOp t op) hnul.2 hres.1 hres.2

theorem claim_C6_witness :
    opsNulFree ([Op.add (strK "ab") 1, Op.remove (strK "ab"), Op.add (strK "a") 2] :
      List (Op Nat)) = true ∧
    tcOk (applyOps ([Op.add (strK "ab") 1, Op.remove (strK "ab"), Op.add (strK "a") 2] :
      List (Op Nat))).root = true :=
  ⟨by decide, claim_C6_termcount_invariant _ (by decide)⟩

/-- C7 (corrected): after `Remove`, the code recomputes masks only from the
parent of the node whose child was detached upward, so the stopping
ancestor itself can keep a stale mask; what holds instead, for every trie
state and every key, is preservation of the hereditary safe
over-approximation: each node's mask contains its own character bit and
every child's mask. -/
theorem claim_C7_mask_preserved (t : Trie α) (key : List Char)
    (h : maskOk t.root = true) : maskOk ((Remove t key).2).root = true :=
  Remove_maskOk t key h

theorem claim_C7_witness :
    maskOk ppTrie.root = true ∧ maskOk ((Remove ppTrie (strK "foo")).2).root = true :=
  ⟨by decide, claim_C7_mask_preserved ppTrie (strK "foo") (by decide)⟩

/-- C8 (corrected): removing a stored key `k` that is a strict proper
prefix of another stored key `k2` returns `k`'s value, decrements the size
by one, and leaves `k2` intact — provided `k2` does not continue `k` with
the sentinel rune U+0000 (without that proviso `Remove` corrupts `k2`, see
the counterexample). -/
theorem claim_C8_prefix_removal (t : Trie α) (k k2 : List Char) (vk v2 : Option α)
    (hwf : trieWf t = true)
    (hk : Find t k = (vk, true))
    (hk2 : Find t k2 = (v2, true))
    (hpre : List.IsPrefix k k2) (hne : k ≠ k2)
    (hnul : ¬ List.IsPrefix (k ++ [nulChar]) k2) :
    (Remove t k).1 = vk ∧
    (Remove t k).2.size = t.size - 1 ∧
    Find (Remove t k).2 k2 = (v2, true) ∧
    k2 ∈ FindByPrefix (Remove t k).2 [] := by
  have hk' : (nodeFind t.root k).2 = true := by rw [← Find_nodeFind, hk]
  obtain ⟨node, target, h1, h2, h3⟩ := hasTerminal_inv (nodeFind_hasTerminal t.root k hk')
  obtain ⟨hval, hsize, hstrip⟩ := Remove_fire t k node target h1 h2 h3
  obtain ⟨-, -, hwfS, -⟩ := trieWf_parts hwf
  have hne2 : k2 ≠ k := fun hh => hne hh.symm
  have hqk : ¬ List.IsPrefix (k2 ++ [nulChar]) k := by
    rintro ⟨u, hu⟩
    obtain ⟨w, hw⟩ := hpre
    have hlen := congrArg List.length hu
    have hlen2 := congrArg List.length hw
    simp at hlen hlen2
    omega
  have hframe := removeSimple_frame k (stripMasks t.root) k2 hne2 hnul hqk
  have hfind2 : nodeFind t.root k2 = (v2, true) := by rw [← Find_nodeFind]; exact hk2
  have hnf2 : nodeFind ((Remove t k).2).root k2 = (v2, true) := by
    rw [← nodeFind_strip, hstrip, hframe, nodeFind_strip]
    exact hfind2
  refine ⟨?_, hsize, by rw [Find_nodeFind]; exact hnf2, ?_⟩
  · rw [hval]
    have hfk : Find t k = (target.value, true) := by
      rw [Find_nodeFind]
      simp [nodeFind, h1, h2, h3]
    have hv : ((vk, true) : Option α × Bool) = (target.value, true) := by rw [← hk, hfk]
    exact (congrArg Prod.fst hv).symm
  · have hwfR : structWf [] ((Remove t k).2).root = true := by
      rw [← structWf_strip_pair.1, hstrip]
      exact structWf_removeSimple k [] (stripMasks t.root)
        (by rw [structWf_strip_pair.1]; exact hwfS)
    have hhtR : hasTerminal ((Remove t k).2).root k2 = true :=
      nodeFind_hasTerminal _ k2 (by rw [hnf2])
    obtain ⟨n', tn, hf', hlk', ht'⟩ := hasTerminal_inv hhtR
    obtain ⟨hpath, hmem⟩ :=
      hasTerminal_sound k2 ((Remove t k).2).root [] hwfR n' tn hf' hlk' ht'
    have hpk2 : tn.path = k2 := by simpa using hpath
    rw [show FindByPrefix (Remove t k).2 [] = collect ((Remove t k).2).root from rfl]
    rw [mem_collect, ← hpk2]
    exact hmem

theorem claim_C8_witness :
    (trieWf ppTrie = true ∧ Find ppTrie (strK "foo") = (some 10, true) ∧
      Find ppTrie (strK "foosball") = (some 20, true) ∧
      List.IsPrefix (strK "foo") (strK "foosball") ∧
      strK "foo" ≠ strK "foosball" ∧
      ¬ List.IsPrefix (strK "foo" ++ [nulChar]) (strK "foosball")) ∧
    ((Remove ppTrie (strK "foo")).1 = some 10 ∧
      (Remove ppTrie (strK "foo")).2.size = ppTrie.size - 1 ∧
      Find (Remove ppTrie (strK "foo")).2 (strK "foosball") = (some 20, true) ∧
      strK "foosball" ∈ FindByPrefix (Remove ppTrie (strK "foo")).2 []) :=
  ⟨⟨by decide, by decide, by decide, by decide, by decide, by decide⟩,
    claim_C8_prefix_removal ppTrie (strK "foo") (strK "foosball") (some 10) (some 20)
      (by decide) (by decide) (by decide) (by decide) (by decide) (by decide)⟩

end Gtrie
